import Mathlib

/-!
# service-notifications: the Slack side of `update.go`

A shallow embedding of `UpdateSlackData` (the matcher that links a Slack user
to a Planning Center person) and of `CreateSlackChannels` (window, due plan
times, topic, channel names, invitees, archival), with the properties proved
about them.

Conventions of the embedding:

* `uint64` columns are `Nat`; no arithmetic is done on them.
* Go's `int` is 64 bits wide; `wrapInt` is its two's-complement wrap-around
  and `toUint64` the conversion `uint64(x)`.
* A `time.Time` is the number of nanoseconds since the Unix epoch (UTC), an
  `Int`; a `time.Duration` is a number of nanoseconds.
* A table is the list of its rows in the order the store returns them; the
  comparisons of a query are those of the values compared.
* Only the columns that the embedded code reads or writes are kept in the
  row types; the others are carried along unchanged by the code.
* Library functions called by the code (`levenshtein.ComputeDistance`,
  `sort.Slice`, the Slack client) are parameters; where the order of equal
  elements matters, `sort.Slice` is also given as package `sort` runs it.
-/

namespace ServiceNotifications

/-! ## Machine integers -/

/-- Two's-complement value of an integer in Go's 64-bit `int`. -/
def wrapInt (x : Int) : Int := (x + 2 ^ 63) % 2 ^ 64 - 2 ^ 63

/-- The conversion `uint64(x)` of a Go `int`. -/
def toUint64 (x : Int) : Nat := (x % 2 ^ 64).toNat

/-! ## Rows (`database.go`) -/

/-- Planning Center people information (`People`). -/
structure People where
  ID : Nat
  FirstName : String
  LastName : String
  Distance : Nat
deriving DecidableEq, Repr, Inhabited

/-- Slack users and their association with Planning Center people (`SlackUsers`). -/
structure SlackUsers where
  ID : String
  Name : String
  RealName : String
  FirstName : String
  LastName : String
  PCID : Nat
deriving DecidableEq, Repr, Inhabited

/-! ## The matcher of `UpdateSlackData` (update.go 260-301) -/

/-- The body of the scoring loop (update.go 267-279): the `int` held by
`distance` when it is stored. `lev` is `levenshtein.ComputeDistance`. -/
def computeDistance (lev : String → String → Nat) (u : SlackUsers) (person : People) : Int :=
  let distance : Int := lev u.Name (person.FirstName ++ " " ++ person.LastName)
  let newDistance : Int := lev u.RealName (person.FirstName ++ " " ++ person.LastName)
  let distance := if newDistance < distance then newDistance else distance
  let newDistance : Int := lev u.FirstName person.FirstName
  let newDistance := wrapInt (newDistance + lev u.LastName person.LastName)
  let distance := if newDistance < distance then newDistance else distance
  distance

/-- The score stored in `people[i].Distance` (update.go 281). -/
def score (lev : String → String → Nat) (u : SlackUsers) (person : People) : Nat :=
  toUint64 (computeDistance lev u person)

/-- The scoring loop (update.go 266-282): every person gets its score. -/
def scorePeople (lev : String → String → Nat) (u : SlackUsers) (people : List People) :
    List People :=
  people.map fun person => { person with Distance := score lev u person }

/-- What `sort.Slice` with the comparison `people[i].Distance < people[j].Distance`
guarantees: the result is a rearrangement of the input in which no element
is followed by one of smaller distance. -/
def SortsByDistance (sortSlice : List People → List People) : Prop :=
  ∀ l, (sortSlice l).Perm l ∧ (sortSlice l).Pairwise fun a b => a.Distance ≤ b.Distance

/-- The matching step (update.go 264-301) for one Slack user `u` against the
rows `people` of the people table. `sortSlice` is the `sort.Slice` call. An
index `people[0]` into an empty slice would stop the program; a sort never
changes the length, so that arm leaves `u` as it is at that point. -/
def matchUser (lev : String → String → Nat) (sortSlice : List People → List People)
    (u : SlackUsers) (people : List People) : SlackUsers :=
  if people.length ≠ 0 then
    let people := scorePeople lev u people
    let people := sortSlice people
    let u := { u with PCID := 0 }
    match people with
    | [] => u
    | first :: _ => if first.Distance < 7 then { u with PCID := first.ID } else u
  else u

/-- An insertion sort by distance, one implementation of the `sort.Slice` call. -/
def sortByDistance (l : List People) : List People :=
  l.insertionSort fun a b => a.Distance ≤ b.Distance

/-- The edit distance of two strings, counted in characters. -/
def editDistance (a b : String) : Nat :=
  levenshtein Levenshtein.defaultCost a.toList b.toList

/-! ## Rows and tables read by `CreateSlackChannels` (`database.go`) -/

/-- Planning Center service types (`ServiceTypes`). -/
structure ServiceTypes where
  ID : Nat
  Name : String
deriving DecidableEq, Repr

/-- Planning Center plans (`Plans`). -/
structure Plans where
  ID : Nat
  SeriesTitle : String
  Title : String
  ServiceType : Nat
deriving DecidableEq, Repr

/-- Planning Center plan times (`PlanTimes`). -/
structure PlanTimes where
  ID : Nat
  TimeType : String
  StartsAt : Int
  EndsAt : Int
  Plan : Nat
deriving DecidableEq, Repr

/-- Planning Center people assigned to a plan (`PlanPeople`). -/
structure PlanPeople where
  ID : Nat
  Person : Nat
  Plan : Nat
deriving DecidableEq, Repr

/-- Slack channels that were created and state information (`SlackChannels`). -/
structure SlackChannels where
  ID : String
  Name : String
  Description : String
  PCPlan : Nat
  StartsAt : Int
  EndsAt : Int
  UsersInvited : String
  Archived : Bool
deriving DecidableEq, Repr

/-- The zero value of `ServiceTypes`, what `First` leaves when no row matches. -/
instance : Inhabited ServiceTypes := ⟨⟨0, ""⟩⟩

/-- The zero value of `Plans`. -/
instance : Inhabited Plans := ⟨⟨0, "", "", 0⟩⟩

/-- The zero value of `SlackChannels`. -/
instance : Inhabited SlackChannels := ⟨⟨"", "", "", 0, 0, 0, "", false⟩⟩

/-- The tables `CreateSlackChannels` reads and writes through `app.db`. -/
structure DB where
  serviceTypes : List ServiceTypes
  plans : List Plans
  planTimes : List PlanTimes
  planPeople : List PlanPeople
  slackUsers : List SlackUsers
  slackChannels : List SlackChannels
deriving DecidableEq, Repr

/-- The query `Where(cond).First(&row)` into a zero-valued `row`: the first
matching row, and the zero value when there is none. -/
def First {α : Type} [Inhabited α] (cond : α → Bool) (rows : List α) : α :=
  (rows.find? cond).getD default

/-- The call `app.db.Create(&channel)`: the row is inserted unless the primary
key is taken, in which case the store refuses it (the code drops the error).
The store does not say where a new row goes; it is put last. -/
def Create (rows : List SlackChannels) (channel : SlackChannels) : List SlackChannels :=
  if rows.any (fun r => r.ID = channel.ID) then rows else rows ++ [channel]

/-- The call `app.db.Save(&channel)`: with a zero primary key it is `Create`;
otherwise every column of the row with that key is overwritten, and the row
is inserted when no row has the key. -/
def Save (rows : List SlackChannels) (channel : SlackChannels) : List SlackChannels :=
  if channel.ID = "" then Create rows channel
  else if rows.any (fun r => r.ID = channel.ID) then
    rows.map fun r => if r.ID = channel.ID then channel else r
  else rows ++ [channel]

/-! ## Configuration and Slack client -/

/-- Modelled from the spec: the configuration fields `CreateFromWeekday` and
`StickyUsers`, which `CreateSlackChannels` reads from `app.config.Slack` and
which the `SlackConfig` of `config.go` does not declare: the anchor weekday
(an integer, -1 meaning no anchoring) and the list of sticky account ids.
`CreateChannelsAhead` is the declared look-ahead duration. -/
structure SlackConfig where
  CreateChannelsAhead : Int
  CreateFromWeekday : Int
  StickyUsers : List String
deriving Repr

/-- A call made on the Slack client `app.slack`. -/
inductive SlackCall where
  | CreateConversation (ChannelName : String) (IsPrivate : Bool)
  | SetTopicOfConversation (channelID : String) (topic : String)
  | SetPurposeOfConversation (channelID : String) (purpose : String)
  | InviteUsersToConversation (channelID : String) (users : List String)
  | ArchiveConversation (channelID : String)
deriving DecidableEq, Repr

/-- What a Slack call returns: whether `err != nil`, and the `ID` of the
returned channel (read only after `CreateConversation`). -/
structure SlackReply where
  err : Bool
  ID : String
deriving DecidableEq, Repr

/-- The global `app` as `CreateSlackChannels` uses it: the configuration, the
Slack client (its reply may depend on the calls made before), and the
formatting `t.Format("2006-01-02")` of a time as a calendar date. -/
structure App where
  config : SlackConfig
  slack : List SlackCall → SlackCall → SlackReply
  formatDate : Int → String

/-- The state a run works on: the store and the Slack calls issued so far,
oldest first. -/
structure World where
  db : DB
  calls : List SlackCall
deriving DecidableEq, Repr

/-- Issue one Slack call: it is recorded and the client's reply returned. -/
def callSlack (app : App) (w : World) (call : SlackCall) : World × SlackReply :=
  ({ w with calls := w.calls ++ [call] }, app.slack w.calls call)

/-- Replace the channel table of a world. -/
def World.setChannels (w : World) (rows : List SlackChannels) : World :=
  { w with db := { w.db with slackChannels := rows } }

/-! ## Window (update.go 322-350) -/

/-- The duration `time.Hour`, in nanoseconds. -/
def Hour : Int := 3600000000000

/-- The value `int(t.Weekday())` of a UTC time, Sunday = 0: the first of
January 1970 was a Thursday. -/
def Weekday (t : Int) : Int := (t / 86400000000000 + 4) % 7

/-- The days to subtract, `daysSub` (update.go 333-345). -/
def daysSub (CreateFromWeekday : Int) (thisWeekday : Int) : Int :=
  if thisWeekday ≥ CreateFromWeekday then
    wrapInt (CreateFromWeekday - thisWeekday)
  else
    wrapInt (CreateFromWeekday - wrapInt (thisWeekday + 7))

/-- The window start `startDate` (update.go 323-348). -/
def startDate (CreateFromWeekday : Int) (now : Int) : Int :=
  if CreateFromWeekday ≠ -1 ∧ CreateFromWeekday ≤ 6 then
    now + wrapInt (wrapInt (Hour * 24) * daysSub CreateFromWeekday (Weekday now))
  else now

/-- The window end `lastDate` (update.go 350). -/
def lastDate (config : SlackConfig) (now : Int) : Int :=
  startDate config.CreateFromWeekday now + config.CreateChannelsAhead

/-- The plan times the query of update.go 354 returns. -/
def duePlanTimes (planTimes : List PlanTimes) (startDate lastDate : Int) : List PlanTimes :=
  planTimes.filter fun pt =>
    pt.TimeType = "service" ∧ pt.StartsAt > startDate ∧ pt.StartsAt < lastDate

/-! ## Topic (update.go 390-398) -/

/-- The topic/description composed from the service type and the plan. -/
def composeTopic (serviceType : ServiceTypes) (plan : Plans) : String :=
  let topic := serviceType.Name
  if plan.SeriesTitle = "" ∧ plan.Title ≠ "" then
    topic ++ " - " ++ plan.Title
  else if plan.SeriesTitle ≠ "" ∧ plan.Title ≠ "" then
    topic ++ " - " ++ plan.SeriesTitle ++ " (" ++ plan.Title ++ ")"
  else if plan.SeriesTitle ≠ "" then
    topic ++ " - " ++ plan.SeriesTitle
  else topic

/-! ## Channel name (update.go 411-425) -/

/-- The name `fmt.Sprintf("%s_%d", base, startingID)`. -/
def suffixedName (base : String) (startingID : Nat) : String :=
  base ++ "_" ++ Nat.repr startingID

/-- The probe loop of update.go 417-425, entered with `fuel` iterations
allowed, the counter `startingID` and the current `name`; `none` when the
iterations are used up before the loop breaks. -/
def probeLoop (rows : List SlackChannels) (base : String) :
    Nat → Nat → String → Option String
  | 0, _, _ => none
  | fuel + 1, startingID, name =>
    let duplicateChannel := First (fun r : SlackChannels => r.Name = name) rows
    if duplicateChannel.ID = "" then some name
    else probeLoop rows base fuel (startingID + 1) (suffixedName base (startingID + 1))

/-- The name allocator (update.go 412-425): the loop started at the bare
date with `startingID = 1`. One iteration more than there are stored
channels is always enough (`probeLoop_terminates`). -/
def allocateName (rows : List SlackChannels) (base : String) : Option String :=
  probeLoop rows base (rows.length + 1) 1 base

/-- The `k`-th name of the probe sequence `D`, `D_2`, `D_3`, ... (from 1). -/
def probeName (base : String) (k : Nat) : String :=
  if k ≤ 1 then base else suffixedName base k

/-- The lookup of update.go 418-420 reports the name as taken. -/
def nameTaken (rows : List SlackChannels) (name : String) : Prop :=
  (First (fun r : SlackChannels => r.Name = name) rows).ID ≠ ""

/-- Decide `nameTaken`. -/
instance (rows : List SlackChannels) (name : String) : Decidable (nameTaken rows name) :=
  inferInstanceAs (Decidable (_ ≠ _))

/-! ## Invitees (update.go 462-542) -/

/-- The call `strings.Split(s, ",")`. -/
def stringsSplit (s : String) : List String :=
  (s.toList.splitOn ',').map String.mk

/-- The call `strings.Join(l, ",")`. -/
def stringsJoin (l : List String) : String :=
  String.mk (List.intercalate [','] (l.map String.toList))

/-- The previously invited users decoded from `UsersInvited` (update.go 463-467). -/
def invitedOf (UsersInvited : String) : List String :=
  let invited := stringsSplit UsersInvited
  if invited.length = 1 ∧ invited.head? = some "" then [] else invited

/-- One candidate of the invite loops (update.go 475-494 and 507-527): it is
appended unless it was invited before or is queued already. -/
def queueUser (invited usersToInvite : List String) (uid : String) : List String :=
  if uid ∈ invited ∨ uid ∈ usersToInvite then usersToInvite else usersToInvite ++ [uid]

/-- The list `usersToInvite` at update.go 529: first the sticky users, then
the people on the plan that have a Slack user. -/
def usersToInvite (StickyUsers : List String) (slackUsers : List SlackUsers)
    (invited : List String) (peopleOnPlan : List PlanPeople) : List String :=
  let usersToInvite := StickyUsers.foldl (queueUser invited) []
  peopleOnPlan.foldl (fun usersToInvite personOnPlan =>
    let slackUser := First (fun r : SlackUsers => r.PCID = personOnPlan.Person) slackUsers
    if slackUser.ID = "" then usersToInvite
    else queueUser invited usersToInvite slackUser.ID) usersToInvite

/-- The invitee step of one iteration (update.go 462-542) for `channel`. -/
def inviteStep (app : App) (w : World) (channel : SlackChannels)
    (peopleOnPlan : List PlanPeople) : World :=
  let invited := invitedOf channel.UsersInvited
  let usersToInvite := usersToInvite app.config.StickyUsers w.db.slackUsers invited peopleOnPlan
  if usersToInvite.length ≠ 0 then
    let invited := invited ++ usersToInvite
    let channel := { channel with UsersInvited := stringsJoin invited }
    let w := (callSlack app w (.InviteUsersToConversation channel.ID usersToInvite)).1
    w.setChannels (Save w.db.slackChannels channel)
  else w

/-! ## One run of `CreateSlackChannels` (update.go 321-557) -/

/-- The branch for a plan whose channel exists (update.go 404-409). -/
def refreshChannel (app : App) (w : World) (channel : SlackChannels) (topic : String) :
    World × SlackChannels :=
  if channel.Description ≠ topic then
    let w := (callSlack app w (.SetTopicOfConversation channel.ID topic)).1
    let w := (callSlack app w (.SetPurposeOfConversation channel.ID topic)).1
    let channel := { channel with Description := topic }
    (w.setChannels (Save w.db.slackChannels channel), channel)
  else (w, channel)

/-- The branch that creates a channel (update.go 411-459), the name being
allocated already. `Except.error` is the exit through `log.Fatalln`. -/
def createChannel (app : App) (w : World) (planTime : PlanTimes) (channel : SlackChannels)
    (topic : String) (name : String) : Except World (World × SlackChannels) :=
  let channel := { channel with Name := name }
  let (w, schan) := callSlack app w (.CreateConversation channel.Name true)
  if schan.err then .error w
  else
    let w :=
      if topic ≠ "" then
        let w := (callSlack app w (.SetTopicOfConversation channel.ID topic)).1
        (callSlack app w (.SetPurposeOfConversation channel.ID topic)).1
      else w
    let channel := { channel with
      ID := schan.ID, PCPlan := planTime.Plan, StartsAt := planTime.StartsAt,
      EndsAt := planTime.EndsAt, Description := topic }
    .ok (w.setChannels (Create w.db.slackChannels channel), channel)

/-- One iteration of the loop over the due plan times (update.go 361-543).
`none`: the probe loop does not end; `Except.error`: the process exits
through `log.Fatalln`; `Except.ok`: the loop goes on with the next plan time. -/
def processPlanTime (app : App) (w : World) (planTime : PlanTimes) :
    Option (Except World World) :=
  let plan := First (fun r : Plans => r.ID = planTime.Plan) w.db.plans
  if plan.ID = 0 then some (.ok w)
  else
    let serviceType := First (fun r : ServiceTypes => r.ID = plan.ServiceType) w.db.serviceTypes
    if serviceType.ID = 0 then some (.ok w)
    else
      let peopleOnPlan := w.db.planPeople.filter fun r => r.Plan = plan.ID
      if peopleOnPlan.length = 0 then some (.ok w)
      else
        let channel := First (fun r : SlackChannels => r.PCPlan = plan.ID) w.db.slackChannels
        let topic := composeTopic serviceType plan
        if channel.ID ≠ "" then
          let (w, channel) := refreshChannel app w channel topic
          some (.ok (inviteStep app w channel peopleOnPlan))
        else
          match allocateName w.db.slackChannels (app.formatDate planTime.StartsAt) with
          | none => none
          | some name =>
            match createChannel app w planTime channel topic name with
            | .error w => some (.error w)
            | .ok (w, channel) => some (.ok (inviteStep app w channel peopleOnPlan))

/-- The loop over the due plan times (update.go 361-543). -/
def processPlanTimes (app : App) : World → List PlanTimes → Option (Except World World)
  | w, [] => some (.ok w)
  | w, planTime :: rest =>
    match processPlanTime app w planTime with
    | none => none
    | some (.error w) => some (.error w)
    | some (.ok w) => processPlanTimes app w rest

/-- The archival sweep (update.go 545-557) with window start `startDate`. -/
def archiveSweep (app : App) (w : World) (startDate : Int) : World :=
  let channelsToArchive := w.db.slackChannels.filter fun r =>
    r.StartsAt < startDate ∧ r.Archived ≠ true
  channelsToArchive.foldl (fun w channel =>
    let w := (callSlack app w (.ArchiveConversation channel.ID)).1
    let channel := { channel with Archived := true }
    w.setChannels (Save w.db.slackChannels channel)) w

/-- A run of `CreateSlackChannels` at time `now` on the store `db`.
`none`: the run does not end; `Except.error w`: the process exited through
`log.Fatalln` in state `w`; `Except.ok w`: the function returned in state `w`. -/
def CreateSlackChannels (app : App) (now : Int) (db : DB) : Option (Except World World) :=
  let startDate := startDate app.config.CreateFromWeekday now
  let lastDate := lastDate app.config now
  let planTimes := duePlanTimes db.planTimes startDate lastDate
  if planTimes.length = 0 then some (.error ⟨db, []⟩)
  else
    match processPlanTimes app ⟨db, []⟩ planTimes with
    | none => none
    | some (.error w) => some (.error w)
    | some (.ok w) => some (.ok (archiveSweep app w startDate))

/-! ## Auxiliary definitions used in the statements -/

/-- The topic as the specification words it: the service type name, then
`" - " + seriesTitle` when the series title is non-empty, then
`" (" + title + ")"` when the title is non-empty. -/
def topicBySpec (serviceTypeName seriesTitle title : String) : String :=
  serviceTypeName ++ (if seriesTitle ≠ "" then " - " ++ seriesTitle else "") ++
    (if title ≠ "" then " (" ++ title ++ ")" else "")

/-- The number written by a list of decimal digit characters, read after `start`. -/
def digitsValue (l : List Char) (start : Nat) : Nat :=
  l.foldl (fun acc c => 10 * acc + (c.toNat - 48)) start

/-- The rows of key `X`: there is one, and each of them starts at `s` and has
the archived flag `a`. -/
def ChannelKept (X : String) (s : Int) (a : Bool) (rows : List SlackChannels) : Prop :=
  (∃ r ∈ rows, r.ID = X) ∧ ∀ r ∈ rows, r.ID = X → r.StartsAt = s ∧ r.Archived = a

/-! ## A concrete store, used to exhibit runs -/

/-- A Slack client whose every call returns an error. -/
def failingSlack : List SlackCall → SlackCall → SlackReply := fun _ _ => ⟨true, ""⟩

/-- An application with no anchoring, a look-ahead of 1000 and one sticky user. -/
def exampleApp : App := ⟨⟨1000, -1, ["U7"]⟩, failingSlack, fun _ => "2024-05-05"⟩

/-- The channel of a past service, not archived. -/
def staleChannel : SlackChannels := ⟨"C0", "2024-04-28", "Sunday", 9, 50, 60, "", false⟩

/-- The channel of the coming service, nobody invited so far. -/
def dueChannel : SlackChannels := ⟨"C1", "2024-05-05", "Sunday", 1, 150, 160, "", false⟩

/-- The plan time of the coming service. -/
def duePlanTime : PlanTimes := ⟨1, "service", 150, 160, 1⟩

/-- A store with one service type, one plan with one plan time and one person
assigned, the Slack user of that person, and the two channels above. -/
def exampleDB : DB :=
  { serviceTypes := [⟨1, "Sunday"⟩]
    plans := [⟨1, "", "", 1⟩]
    planTimes := [duePlanTime]
    planPeople := [⟨1, 5, 1⟩]
    slackUsers := [⟨"U5", "ann", "Ann Lee", "Ann", "Lee", 5⟩]
    slackChannels := [staleChannel, dueChannel] }

/-! ## Further definitions used in the statements -/

/-- The days to go back as the specification words them: `weekday − anchor`
when `weekday ≥ anchor`, and `weekday − (anchor + 7)` otherwise. -/
def daysBackBySpec (anchor weekday : Int) : Int :=
  if weekday ≥ anchor then weekday - anchor else weekday - (anchor + 7)

/-- The world an iteration or a run ends in, whether it returned or exited. -/
def outcomeWorld : Except World World → World
  | .ok w => w
  | .error w => w

/-- A Slack client whose every call succeeds and that names `C9` every
channel it creates. -/
def workingSlack : List SlackCall → SlackCall → SlackReply := fun _ call =>
  match call with
  | .CreateConversation _ _ => ⟨false, "C9"⟩
  | _ => ⟨false, ""⟩

/-- The example application with the working Slack client. -/
def workingApp : App := { exampleApp with slack := workingSlack }

/-- The plan time of a second coming service, whose plan has no channel yet. -/
def newPlanTime : PlanTimes := ⟨2, "service", 170, 180, 2⟩

/-- The example store with a second plan, of series `Easter`, its plan time
first among the plan times, and the same person assigned to it. -/
def exampleDB2 : DB :=
  { exampleDB with
    plans := [⟨1, "", "", 1⟩, ⟨2, "Easter", "", 1⟩]
    planTimes := [newPlanTime, duePlanTime]
    planPeople := [⟨1, 5, 1⟩, ⟨2, 5, 2⟩] }

/-- The rows of key `X`: there is one, and each of them satisfies `P`. -/
def RowsOfKey (X : String) (P : SlackChannels → Prop) (rows : List SlackChannels) : Prop :=
  (∃ r ∈ rows, r.ID = X) ∧ ∀ r ∈ rows, r.ID = X → P r

/-- The plan looked up for a plan time (update.go 363-364). -/
def planFor (w : World) (planTime : PlanTimes) : Plans :=
  First (fun r : Plans => r.ID = planTime.Plan) w.db.plans

/-- The people assigned to the plan of a plan time (update.go 379-380). -/
def peopleOnPlanFor (w : World) (planTime : PlanTimes) : List PlanPeople :=
  w.db.planPeople.filter fun r => r.Plan = (planFor w planTime).ID

/-- The channel looked up for the plan of a plan time (update.go 387-388). -/
def channelFor (w : World) (planTime : PlanTimes) : SlackChannels :=
  First (fun r : SlackChannels => r.PCPlan = (planFor w planTime).ID) w.db.slackChannels

/-- The topic composed for a plan time (update.go 371-372 and 391-398). -/
def topicFor (w : World) (planTime : PlanTimes) : String :=
  composeTopic
    (First (fun r : ServiceTypes => r.ID = (planFor w planTime).ServiceType) w.db.serviceTypes)
    (planFor w planTime)

/-- A channel table with distinct primary keys, none of them empty, and at
most one channel per plan. -/
def WellKeyed (rows : List SlackChannels) : Prop :=
  (rows.map fun r => r.ID).Nodup ∧ (rows.map fun r => r.PCPlan).Nodup ∧ ∀ r ∈ rows, r.ID ≠ ""

/-- The example store with the channel of the coming service already archived. -/
def exampleDB3 : DB :=
  { exampleDB with slackChannels := [staleChannel, { dueChannel with Archived := true }] }

/-! ## `sort.Slice` as package `sort` runs it

The pattern-defeating quicksort of Go's package `sort` (`pdqsort_func` and
its helpers, Go 1.19 and later), on the slice `people` with the comparison of
update.go 285-287. The model follows the library statement by statement,
except that it stops (`none`) where the library would break patterns after an
unbalanced partition: those swaps are pseudo-random. The counter `limit` is
decreased only there, so the heapsort fallback at `limit == 0` is not reached
before that point and `limit` is left out. -/

/-- The call `data.Less(i, j)`: `people[i].Distance < people[j].Distance`. -/
def lessAt (data : List People) (i j : Nat) : Bool :=
  (data.getD i default).Distance < (data.getD j default).Distance

/-- The call `data.Swap(i, j)`. -/
def swapAt (data : List People) (i j : Nat) : List People :=
  (data.set i (data.getD j default)).set j (data.getD i default)

/-- The inner loop of `insertionSort_func`:
`for j := i; j > a && data.Less(j, j-1); j-- { data.Swap(j, j-1) }`. -/
def insertionShift (a : Nat) : Nat → List People → List People
  | 0, data => data
  | j + 1, data =>
    if j + 1 > a ∧ lessAt data (j + 1) j then insertionShift a j (swapAt data (j + 1) j)
    else data

/-- The function `insertionSort_func(data, a, b)`. -/
def insertionSort_func (data : List People) (a b : Nat) : List People :=
  (List.range' (a + 1) (b - (a + 1))).foldl (fun data i => insertionShift a i data) data

/-- The hint `choosePivot_func` returns with the pivot. -/
inductive SortedHint where
  | unknownHint
  | increasingHint
  | decreasingHint
deriving DecidableEq, Repr

/-- The function `order2_func(data, a, b, &swaps)`, returning also `swaps`. -/
def order2_func (data : List People) (a b swaps : Nat) : Nat × Nat × Nat :=
  if lessAt data b a then (b, a, swaps + 1) else (a, b, swaps)

/-- The function `median_func(data, a, b, c, &swaps)`, returning also `swaps`. -/
def median_func (data : List People) (a b c swaps : Nat) : Nat × Nat :=
  let (a, b, swaps) := order2_func data a b swaps
  let (b, _, swaps) := order2_func data b c swaps
  let (_, b, swaps) := order2_func data a b swaps
  (b, swaps)

/-- The function `medianAdjacent_func(data, a, &swaps)`. -/
def medianAdjacent_func (data : List People) (a swaps : Nat) : Nat × Nat :=
  median_func data (a - 1) a (a + 1) swaps

/-- The function `choosePivot_func(data, a, b)`: a static pivot below 8
elements, the median of three below 50, Tukey's ninther from 50 on. -/
def choosePivot_func (data : List People) (a b : Nat) : Nat × SortedHint :=
  let l := b - a
  let i := a + l / 4 * 1
  let j := a + l / 4 * 2
  let k := a + l / 4 * 3
  let (j, swaps) :=
    if l ≥ 8 then
      if l ≥ 50 then
        let (i, swaps) := medianAdjacent_func data i 0
        let (j, swaps) := medianAdjacent_func data j swaps
        let (k, swaps) := medianAdjacent_func data k swaps
        median_func data i j k swaps
      else median_func data i j k 0
    else (j, 0)
  if swaps = 0 then (j, .increasingHint)
  else if swaps = 4 * 3 then (j, .decreasingHint)
  else (j, .unknownHint)

/-- The function `reverseRange_func(data, a, b)`. -/
def reverseRange_func (data : List People) (a b : Nat) : List People :=
  (List.range ((b - a) / 2)).foldl (fun data n => swapAt data (a + n) (b - 1 - n)) data

/-- The loop `for i < b && !data.Less(i, i-1) { i++ }`, at most `fuel` steps. -/
def skipOrdered (data : List People) (b : Nat) : Nat → Nat → Nat
  | 0, i => i
  | fuel + 1, i => if i < b ∧ ¬ lessAt data i (i - 1) then skipOrdered data b fuel (i + 1) else i

/-- The loop `for j := i - 1; j >= 1; j--` of `partialInsertionSort_func`,
entered at `j`. -/
def shiftSmaller : Nat → List People → List People
  | 0, data => data
  | j + 1, data =>
    if lessAt data (j + 1) j then shiftSmaller j (swapAt data (j + 1) j) else data

/-- The loop `for j := i + 1; j < b; j++` of `partialInsertionSort_func`,
entered at `j`, at most `fuel` steps. -/
def shiftGreater (b : Nat) : Nat → Nat → List People → List People
  | 0, _, data => data
  | fuel + 1, j, data =>
    if j < b then
      if lessAt data j (j - 1) then shiftGreater b fuel (j + 1) (swapAt data j (j - 1)) else data
    else data

/-- The loop over `maxSteps` of `partialInsertionSort_func`, `steps` of
them left, with the slice and whether it is sorted at the end. -/
def partialInsertionSortLoop (a b : Nat) : Nat → Nat → List People → List People × Bool
  | 0, _, data => (data, false)
  | steps + 1, i, data =>
    let i := skipOrdered data b b i
    if i = b then (data, true)
    else if b - a < 50 then (data, false)
    else
      let data := swapAt data i (i - 1)
      let data := if i - a ≥ 2 then shiftSmaller (i - 1) data else data
      let data := if b - i ≥ 2 then shiftGreater b b (i + 1) data else data
      partialInsertionSortLoop a b steps i data

/-- The function `partialInsertionSort_func(data, a, b)`. -/
def partialInsertionSort_func (data : List People) (a b : Nat) : List People × Bool :=
  partialInsertionSortLoop a b 5 (a + 1) data

/-- The loop `for i <= j && data.Less(i, a) { i++ }`, at most `fuel` steps. -/
def scanLess (data : List People) (a j : Nat) : Nat → Nat → Nat
  | 0, i => i
  | fuel + 1, i => if i ≤ j ∧ lessAt data i a then scanLess data a j fuel (i + 1) else i

/-- The loop `for i <= j && !data.Less(j, a) { j-- }`, at most `fuel` steps. -/
def scanNotLess (data : List People) (a i : Nat) : Nat → Nat → Nat
  | 0, j => j
  | fuel + 1, j => if i ≤ j ∧ ¬ lessAt data j a then scanNotLess data a i fuel (j - 1) else j

/-- The closing `for` loop of `partition_func`, at most `fuel` rounds, with
the slice and the final `j`. -/
def partitionLoop (a : Nat) : Nat → Nat → Nat → List People → List People × Nat
  | 0, _, j, data => (data, j)
  | fuel + 1, i, j, data =>
    let i := scanLess data a j data.length i
    let j := scanNotLess data a i data.length j
    if i > j then (data, j)
    else partitionLoop a fuel (i + 1) (j - 1) (swapAt data i j)

/-- The function `partition_func(data, a, b, pivot)`, with the slice, the
new pivot index and whether the slice was already partitioned. -/
def partition_func (data : List People) (a b pivot : Nat) : List People × Nat × Bool :=
  let data := swapAt data a pivot
  let i := a + 1
  let j := b - 1
  let i := scanLess data a j data.length i
  let j := scanNotLess data a i data.length j
  if i > j then (swapAt data j a, j, true)
  else
    let data := swapAt data i j
    let (data, j) := partitionLoop a data.length (i + 1) (j - 1) data
    (swapAt data j a, j, false)

/-- The loop `for i <= j && !data.Less(a, i) { i++ }`, at most `fuel` steps. -/
def scanNotGreater (data : List People) (a j : Nat) : Nat → Nat → Nat
  | 0, i => i
  | fuel + 1, i => if i ≤ j ∧ ¬ lessAt data a i then scanNotGreater data a j fuel (i + 1) else i

/-- The loop `for i <= j && data.Less(a, j) { j-- }`, at most `fuel` steps. -/
def scanGreater (data : List People) (a i : Nat) : Nat → Nat → Nat
  | 0, j => j
  | fuel + 1, j => if i ≤ j ∧ lessAt data a j then scanGreater data a i fuel (j - 1) else j

/-- The `for` loop of `partitionEqual_func`, at most `fuel` rounds, with
the slice and the final `i`. -/
def partitionEqualLoop (a : Nat) : Nat → Nat → Nat → List People → List People × Nat
  | 0, i, _, data => (data, i)
  | fuel + 1, i, j, data =>
    let i := scanNotGreater data a j data.length i
    let j := scanGreater data a i data.length j
    if i > j then (data, i)
    else partitionEqualLoop a fuel (i + 1) (j - 1) (swapAt data i j)

/-- The function `partitionEqual_func(data, a, b, pivot)`. -/
def partitionEqual_func (data : List People) (a b pivot : Nat) : List People × Nat :=
  let data := swapAt data a pivot
  partitionEqualLoop a data.length (a + 1) (b - 1) data

/-- The function `pdqsort_func(data, a, b, limit)`: its loop entered with
the locals `wasBalanced` and `wasPartitioned`, `fuel` rounds and nested calls
allowed. `none` when they are used up, or when the last partition was not
balanced and the library breaks patterns. -/
def pdqsort_func : Nat → List People → Nat → Nat → Bool → Bool → Option (List People)
  | 0, _, _, _, _, _ => none
  | fuel + 1, data, a, b, wasBalanced, wasPartitioned =>
    let length := b - a
    if length ≤ 12 then some (insertionSort_func data a b)
    else if !wasBalanced then none
    else
      let (pivot, hint) := choosePivot_func data a b
      let (data, pivot, hint) :=
        if hint = .decreasingHint then
          (reverseRange_func data a b, (b - 1) - (pivot - a), SortedHint.increasingHint)
        else (data, pivot, hint)
      let (data, sorted) :=
        if wasBalanced ∧ wasPartitioned ∧ hint = .increasingHint then
          partialInsertionSort_func data a b
        else (data, false)
      if sorted then some data
      else if a > 0 ∧ ¬ lessAt data (a - 1) pivot then
        let (data, mid) := partitionEqual_func data a b pivot
        pdqsort_func fuel data mid b wasBalanced wasPartitioned
      else
        let (data, mid, alreadyPartitioned) := partition_func data a b pivot
        let leftLen := mid - a
        let rightLen := b - mid
        let balanceThreshold := length / 8
        if leftLen < rightLen then
          match pdqsort_func fuel data a mid true true with
          | none => none
          | some data =>
            pdqsort_func fuel data (mid + 1) b (leftLen ≥ balanceThreshold) alreadyPartitioned
        else
          match pdqsort_func fuel data (mid + 1) b true true with
          | none => none
          | some data =>
            pdqsort_func fuel data a mid (rightLen ≥ balanceThreshold) alreadyPartitioned

/-- The call `sort.Slice(people, less)` of update.go 285-287: `pdqsort_func`
on the whole slice. -/
def goSortSlice (people : List People) : Option (List People) :=
  pdqsort_func (people.length + 1) people 0 people.length true true

/-- The sort handed to the matcher: the slice as `sort.Slice` leaves it. -/
def sortSliceGo (people : List People) : List People :=
  (goSortSlice people).getD people

/-- Thirteen people: the second and the third are equally close to the user
`jon`, the others are far. -/
def thirteenPeople : List People :=
  [⟨10, "Zed", "Young", 0⟩, ⟨11, "Jon", "A", 0⟩, ⟨12, "Jon", "B", 0⟩, ⟨13, "Zed", "Young", 0⟩,
   ⟨14, "Zed", "Young", 0⟩, ⟨15, "Zed", "Young", 0⟩, ⟨16, "Zed", "Young", 0⟩,
   ⟨17, "Zed", "Young", 0⟩, ⟨18, "Zed", "Young", 0⟩, ⟨19, "Zed", "Young", 0⟩,
   ⟨20, "Zed", "Young", 0⟩, ⟨21, "Zed", "Young", 0⟩, ⟨22, "Zed", "Young", 0⟩]

/-- A Slack client that creates channels, naming each `C9`, and fails every
invite. -/
def inviteFailingSlack : List SlackCall → SlackCall → SlackReply := fun _ call =>
  match call with
  | .CreateConversation _ _ => ⟨false, "C9"⟩
  | .InviteUsersToConversation _ _ => ⟨true, ""⟩
  | _ => ⟨false, ""⟩

/-- The example application with the client that fails every invite. -/
def inviteFailingApp : App := { exampleApp with slack := inviteFailingSlack }

/-- The channel of the coming service with two users invited on earlier runs. -/
def invitedChannel : SlackChannels := { dueChannel with UsersInvited := "U1,U2" }

/-- The example store with that channel in place of the one nobody was invited to. -/
def exampleDB4 : DB := { exampleDB with slackChannels := [staleChannel, invitedChannel] }

/-! ## Lemmas on the matcher -/

theorem toUint64_natCast (n : Nat) (h : n < 2 ^ 63) : toUint64 (n : Int) = n := by
  unfold toUint64
  have h1 : ((n : Int) % 2 ^ 64) = n := by
    apply Int.emod_eq_of_lt <;> omega
  rw [h1]; simp

theorem wrapInt_natCast (n : Nat) (h : n < 2 ^ 63) : wrapInt (n : Int) = n := by
  unfold wrapInt
  have h1 : (((n : Int) + 2 ^ 63) % 2 ^ 64) = n + 2 ^ 63 := by
    apply Int.emod_eq_of_lt <;> omega
  rw [h1]; omega

theorem sortByDistance_sorts : SortsByDistance sortByDistance := by
  intro l
  refine ⟨List.perm_insertionSort _ l, ?_⟩
  have h := @List.sorted_insertionSort People (fun a b => a.Distance ≤ b.Distance) _
    ⟨fun a b => Nat.le_total a.Distance b.Distance⟩
    ⟨fun a b c hab hbc => Nat.le_trans hab hbc⟩ l
  exact h

theorem score_eq_min (lev : String → String → Nat) (u : SlackUsers) (p : People)
    (h1 : lev u.Name (p.FirstName ++ " " ++ p.LastName) < 2 ^ 63)
    (h2 : lev u.RealName (p.FirstName ++ " " ++ p.LastName) < 2 ^ 63)
    (h3 : lev u.FirstName p.FirstName + lev u.LastName p.LastName < 2 ^ 63) :
    score lev u p =
      min (min (lev u.Name (p.FirstName ++ " " ++ p.LastName))
               (lev u.RealName (p.FirstName ++ " " ++ p.LastName)))
          (lev u.FirstName p.FirstName + lev u.LastName p.LastName) := by
  unfold score computeDistance
  simp only
  have hw : wrapInt ((lev u.FirstName p.FirstName : Int) + (lev u.LastName p.LastName : Int))
      = ((lev u.FirstName p.FirstName + lev u.LastName p.LastName : Nat) : Int) := by
    rw [← wrapInt_natCast _ h3]; push_cast; rfl
  rw [hw]
  generalize lev u.Name (p.FirstName ++ " " ++ p.LastName) = a at *
  generalize lev u.RealName (p.FirstName ++ " " ++ p.LastName) = b at *
  generalize lev u.FirstName p.FirstName + lev u.LastName p.LastName = c at *
  split_ifs with hba hcb hca
  · rw [toUint64_natCast _ h3]; omega
  · rw [toUint64_natCast _ h2]; omega
  · rw [toUint64_natCast _ h3]; omega
  · rw [toUint64_natCast _ h1]; omega

theorem scorePeople_mem (lev : String → String → Nat) (u : SlackUsers) (people : List People)
    (q : People) :
    q ∈ scorePeople lev u people ↔
      ∃ p ∈ people, q = { p with Distance := score lev u p } := by
  unfold scorePeople
  constructor
  · intro h
    obtain ⟨p, hp, rfl⟩ := List.mem_map.1 h
    exact ⟨p, hp, rfl⟩
  · rintro ⟨p, hp, rfl⟩
    exact List.mem_map.2 ⟨p, hp, rfl⟩

/-- The first row after sorting carries a minimal score, and the matcher's
answer is read off that row. -/
theorem matchUser_first (lev : String → String → Nat) (sortSlice : List People → List People)
    (hsort : SortsByDistance sortSlice) (u : SlackUsers) (people : List People)
    (hne : people ≠ []) :
    ∃ p ∈ people, (∀ q ∈ people, score lev u p ≤ score lev u q) ∧
      matchUser lev sortSlice u people =
        if score lev u p < 7 then { u with PCID := p.ID } else { u with PCID := 0 } := by
  obtain ⟨hperm, hpw⟩ := hsort (scorePeople lev u people)
  have hlen : people.length ≠ 0 := by
    intro h; exact hne (List.length_eq_zero.1 h)
  unfold matchUser
  rw [if_pos hlen]
  simp only
  cases hs : sortSlice (scorePeople lev u people) with
  | nil =>
    rw [hs] at hperm
    have h0 := hperm.length_eq
    simp [scorePeople] at h0
    exact absurd h0.symm hlen
  | cons first rest =>
    rw [hs] at hperm hpw
    have hfirst : first ∈ scorePeople lev u people :=
      hperm.subset (List.mem_cons_self _ _)
    obtain ⟨p, hp, hpe⟩ := (scorePeople_mem lev u people first).1 hfirst
    refine ⟨p, hp, ?_, ?_⟩
    · intro q hq
      have hq2 : ({ q with Distance := score lev u q } : People) ∈ first :: rest :=
        hperm.symm.subset ((scorePeople_mem lev u people _).2 ⟨q, hq, rfl⟩)
      rcases List.mem_cons.1 hq2 with h | h
      · have : score lev u q = first.Distance := by rw [← h]
        rw [this, hpe]
      · have hle := (List.pairwise_cons.1 hpw).1 _ h
        rw [hpe] at hle
        exact hle
    · simp only [hpe]

/-! ## Lemmas on the invite loops -/

theorem queueUser_nodup (invited acc : List String) (uid : String) (h : acc.Nodup) :
    (queueUser invited acc uid).Nodup := by
  unfold queueUser
  split_ifs with hc
  · exact h
  · have hn : uid ∉ acc := fun hm => hc (Or.inr hm)
    exact List.nodup_append.2 ⟨h, List.nodup_singleton _, by
      intro a ha hb
      rw [List.mem_singleton] at hb
      exact hn (hb ▸ ha)⟩

theorem queueUser_mem (invited acc : List String) (uid id : String) :
    id ∈ queueUser invited acc uid ↔ id ∈ acc ∨ (id = uid ∧ id ∉ invited) := by
  unfold queueUser
  split_ifs with hc
  · constructor
    · exact Or.inl
    · rintro (h | ⟨rfl, hni⟩)
      · exact h
      · rcases hc with h | h
        · exact absurd h hni
        · exact h
  · rw [List.mem_append, List.mem_singleton]
    constructor
    · rintro (h | rfl)
      · exact Or.inl h
      · exact Or.inr ⟨rfl, fun hm => hc (Or.inl hm)⟩
    · rintro (h | ⟨rfl, _⟩)
      · exact Or.inl h
      · exact Or.inr rfl

theorem sticky_fold (invited : List String) (sticky acc : List String) (h : acc.Nodup) :
    (sticky.foldl (queueUser invited) acc).Nodup ∧
    ∀ id, id ∈ sticky.foldl (queueUser invited) acc ↔ id ∈ acc ∨ (id ∈ sticky ∧ id ∉ invited) := by
  induction sticky generalizing acc with
  | nil => simp [h]
  | cons s rest ih =>
    obtain ⟨h1, h2⟩ := ih (queueUser invited acc s) (queueUser_nodup invited acc s h)
    refine ⟨by simpa using h1, ?_⟩
    intro id
    rw [List.foldl_cons, h2, queueUser_mem, List.mem_cons]
    tauto

theorem people_fold (invited : List String) (slackUsers : List SlackUsers)
    (peopleOnPlan : List PlanPeople) (acc : List String) (h : acc.Nodup) :
    (peopleOnPlan.foldl (fun usersToInvite personOnPlan =>
      if (First (fun r : SlackUsers => r.PCID = personOnPlan.Person) slackUsers).ID = ""
      then usersToInvite
      else queueUser invited usersToInvite
        (First (fun r : SlackUsers => r.PCID = personOnPlan.Person) slackUsers).ID) acc).Nodup ∧
    ∀ id, id ∈ peopleOnPlan.foldl (fun usersToInvite personOnPlan =>
      if (First (fun r : SlackUsers => r.PCID = personOnPlan.Person) slackUsers).ID = ""
      then usersToInvite
      else queueUser invited usersToInvite
        (First (fun r : SlackUsers => r.PCID = personOnPlan.Person) slackUsers).ID) acc ↔
      id ∈ acc ∨ ((∃ pp ∈ peopleOnPlan,
        (First (fun r : SlackUsers => r.PCID = pp.Person) slackUsers).ID = id ∧ id ≠ "") ∧
        id ∉ invited) := by
  induction peopleOnPlan generalizing acc with
  | nil => simp [h]
  | cons pp rest ih =>
    rw [List.foldl_cons]
    by_cases he : (First (fun r : SlackUsers => r.PCID = pp.Person) slackUsers).ID = ""
    · rw [if_pos he]
      obtain ⟨h1, h2⟩ := ih acc h
      refine ⟨h1, ?_⟩
      intro id
      rw [h2]
      constructor
      · rintro (h | ⟨⟨q, hq, hq2⟩, hni⟩)
        · exact Or.inl h
        · exact Or.inr ⟨⟨q, List.mem_cons_of_mem _ hq, hq2⟩, hni⟩
      · rintro (h | ⟨⟨q, hq, hq2, hq3⟩, hni⟩)
        · exact Or.inl h
        · rcases List.mem_cons.1 hq with rfl | hq
          · exact absurd (hq2 ▸ he) hq3
          · exact Or.inr ⟨⟨q, hq, hq2, hq3⟩, hni⟩
    · rw [if_neg he]
      obtain ⟨h1, h2⟩ := ih _ (queueUser_nodup invited acc _ h)
      refine ⟨h1, ?_⟩
      intro id
      rw [h2, queueUser_mem]
      constructor
      · rintro ((h | ⟨rfl, hni⟩) | ⟨⟨q, hq, hq2⟩, hni⟩)
        · exact Or.inl h
        · exact Or.inr ⟨⟨pp, List.mem_cons_self _ _, rfl, he⟩, hni⟩
        · exact Or.inr ⟨⟨q, List.mem_cons_of_mem _ hq, hq2⟩, hni⟩
      · rintro (h | ⟨⟨q, hq, hq2, hq3⟩, hni⟩)
        · exact Or.inl (Or.inl h)
        · rcases List.mem_cons.1 hq with rfl | hq
          · exact Or.inl (Or.inr ⟨hq2.symm, hni⟩)
          · exact Or.inr ⟨⟨q, hq, hq2, hq3⟩, hni⟩

/-! ## Lemmas on the channel name -/

theorem digitChar_value (m : Nat) (h : m < 10) : (Nat.digitChar m).toNat - 48 = m := by
  interval_cases m <;> rfl

theorem toDigitsCore_value (fuel : Nat) : ∀ (n : Nat) (ds : List Char), n < fuel →
    digitsValue (Nat.toDigitsCore 10 fuel n ds) 0 = digitsValue ds n := by
  induction fuel with
  | zero => intro n ds h; omega
  | succ fuel ih =>
    intro n ds h
    unfold Nat.toDigitsCore
    simp only
    have hd := digitChar_value (n % 10) (Nat.mod_lt _ (by decide))
    split_ifs with h0
    · unfold digitsValue
      rw [List.foldl_cons, hd]
      congr 1
      omega
    · rw [ih (n / 10) _ (by omega)]
      unfold digitsValue
      rw [List.foldl_cons, hd]
      congr 1
      omega

theorem repr_injective (a b : Nat) (h : Nat.repr a = Nat.repr b) : a = b := by
  unfold Nat.repr List.asString at h
  have h2 : Nat.toDigits 10 a = Nat.toDigits 10 b := by
    injection h
  have ha := toDigitsCore_value (a + 1) a [] (by omega)
  have hb := toDigitsCore_value (b + 1) b [] (by omega)
  unfold Nat.toDigits at h2
  rw [h2, hb] at ha
  simpa [digitsValue] using ha.symm

theorem string_append_left_cancel (a b c : String) (h : a ++ b = a ++ c) : b = c := by
  have h2 := congrArg String.data h
  rw [String.data_append, String.data_append] at h2
  exact String.ext (List.append_cancel_left h2)

theorem base_ne_suffixed (base : String) (k : Nat) : base ≠ suffixedName base k := by
  intro h
  have h2 := congrArg String.length h
  unfold suffixedName at h2
  rw [String.length_append, String.length_append] at h2
  have : "_".length = 1 := rfl
  omega

theorem probeName_injective (base : String) (j k : Nat) (hj : 1 ≤ j) (hk : 1 ≤ k)
    (h : probeName base j = probeName base k) : j = k := by
  unfold probeName at h
  split_ifs at h with h1 h2 h2
  · omega
  · exact absurd h (base_ne_suffixed base k)
  · exact absurd h.symm (base_ne_suffixed base j)
  · unfold suffixedName at h
    rw [String.append_assoc, String.append_assoc] at h
    have h3 := string_append_left_cancel _ _ _ (string_append_left_cancel _ _ _ h)
    exact repr_injective j k h3

theorem probeName_succ (base : String) (k : Nat) (hk : 1 ≤ k) :
    suffixedName base (k + 1) = probeName base (k + 1) := by
  unfold probeName
  rw [if_neg (by omega)]

theorem nameTaken_exists (rows : List SlackChannels) (name : String)
    (h : nameTaken rows name) : ∃ r ∈ rows, r.Name = name := by
  unfold nameTaken First at h
  cases hf : rows.find? (fun r : SlackChannels => r.Name = name) with
  | none => rw [hf] at h; exact absurd rfl h
  | some r =>
    refine ⟨r, List.mem_of_find?_eq_some hf, ?_⟩
    have := List.find?_some hf
    simpa using this

theorem nameTaken_of_mem (rows : List SlackChannels) (hID : ∀ r ∈ rows, r.ID ≠ "")
    (name : String) (r : SlackChannels) (hr : r ∈ rows) (hn : r.Name = name) :
    nameTaken rows name := by
  unfold nameTaken First
  cases hf : rows.find? (fun r : SlackChannels => r.Name = name) with
  | none =>
    have := List.find?_eq_none.1 hf r hr
    simp [hn] at this
  | some r2 =>
    exact hID r2 (List.mem_of_find?_eq_some hf)

/-- The loop run from counter `k` breaks at the first name not taken. -/
theorem probeLoop_first_free (rows : List SlackChannels) (base : String) (m : Nat)
    (hfree : ¬ nameTaken rows (probeName base m)) :
    ∀ (fuel k : Nat), 1 ≤ k → k ≤ m → m - k < fuel →
      (∀ j, k ≤ j → j < m → nameTaken rows (probeName base j)) →
      probeLoop rows base fuel k (probeName base k) = some (probeName base m) := by
  intro fuel
  induction fuel with
  | zero => intro k _ _ h; omega
  | succ fuel ih =>
    intro k hk hkm hf htaken
    unfold probeLoop
    simp only
    by_cases hkm2 : k = m
    · subst hkm2
      rw [if_pos (by unfold nameTaken at hfree; simpa using hfree)]
    · have ht := htaken k (le_refl _) (by omega)
      unfold nameTaken at ht
      rw [if_neg ht, probeName_succ base k hk]
      exact ih (k + 1) (by omega) (by omega) (by omega)
        (fun j hj hjm => htaken j (by omega) hjm)

/-- Among the first `rows.length + 1` names of the probe sequence one is not taken. -/
theorem exists_free_name (rows : List SlackChannels) (base : String) :
    ∃ m, 1 ≤ m ∧ m ≤ rows.length + 1 ∧ ¬ nameTaken rows (probeName base m) := by
  by_contra hall
  push_neg at hall
  let S : Finset String := (Finset.range (rows.length + 1)).image fun i => probeName base (i + 1)
  have hcard : S.card = rows.length + 1 := by
    rw [Finset.card_image_of_injective, Finset.card_range]
    intro a b hab
    have := probeName_injective base (a + 1) (b + 1) (by omega) (by omega) hab
    omega
  have hsub : S ⊆ (rows.map fun r => r.Name).toFinset := by
    intro x hx
    obtain ⟨i, hi, rfl⟩ := Finset.mem_image.1 hx
    have hi2 := Finset.mem_range.1 hi
    obtain ⟨r, hr, hn⟩ := nameTaken_exists rows _ (hall (i + 1) (by omega) (by omega))
    exact List.mem_toFinset.2 (List.mem_map.2 ⟨r, hr, hn⟩)
  have h1 := Finset.card_le_card hsub
  have h2 := List.toFinset_card_le (rows.map fun r => r.Name)
  rw [List.length_map] at h2
  omega

/-- The allocator returns the first name of the probe sequence that is not
taken, whatever the number of iterations allowed beyond `rows.length`. -/
theorem probeLoop_terminates (rows : List SlackChannels) (base : String) :
    ∃ m, 1 ≤ m ∧ m ≤ rows.length + 1 ∧ ¬ nameTaken rows (probeName base m) ∧
      (∀ j, 1 ≤ j → j < m → nameTaken rows (probeName base j)) ∧
      ∀ fuel, rows.length + 1 ≤ fuel →
        probeLoop rows base fuel 1 base = some (probeName base m) := by
  classical
  have hex := exists_free_name rows base
  have h1 := Nat.find_spec hex
  have hmin := fun j => @Nat.find_min _ _ hex j
  refine ⟨Nat.find hex, h1.1, h1.2.1, h1.2.2, ?_, ?_⟩
  · intro j hj hlt
    by_contra hnt
    exact hmin j hlt ⟨hj, by omega, hnt⟩
  · intro fuel hfuel
    have := probeLoop_first_free rows base (Nat.find hex) h1.2.2 fuel 1 (le_refl _) h1.1
      (by omega) (fun j hj hlt => by
        by_contra hnt
        exact hmin j hlt ⟨hj, by omega, hnt⟩)
    simpa [probeName] using this
/-! ## Lemmas on the store and on one iteration -/

/-- What a successful `createChannel` returns: the row saved and the table after it. -/
theorem createChannel_ok (app : App) (w : World) (planTime : PlanTimes)
    (channel : SlackChannels) (topic name : String) (w2 : World) (created : SlackChannels)
    (h : createChannel app w planTime channel topic name = .ok (w2, created)) :
    created = { channel with
      Name := name, ID := (app.slack w.calls (.CreateConversation name true)).ID,
      PCPlan := planTime.Plan, StartsAt := planTime.StartsAt, EndsAt := planTime.EndsAt,
      Description := topic } ∧
    (app.slack w.calls (.CreateConversation name true)).err = false ∧
    w2.db.slackChannels = Create w.db.slackChannels created ∧
    w2.db.slackUsers = w.db.slackUsers := by
  unfold createChannel callSlack at h
  simp only at h
  split_ifs at h with herr htopic
  · injection h with h
    injection h with h1 h2
    subst h1 h2
    exact ⟨rfl, by simpa using herr, rfl, rfl⟩
  · injection h with h
    injection h with h1 h2
    subst h1 h2
    exact ⟨rfl, by simpa using herr, rfl, rfl⟩

theorem allocateName_second (c : SlackChannels) (hid : c.ID ≠ "")
    (hn : c.Name = "2024-05-05") :
    allocateName [c] "2024-05-05" = some "2024-05-05_2" := by
  have e : suffixedName "2024-05-05" 2 = "2024-05-05_2" := by decide
  have ne : ¬ ("2024-05-05" = "2024-05-05_2") := by decide
  simp [allocateName, probeLoop, First, List.find?, hn, hid, e, ne]
  rfl

/-! ## The rows of one key through a run -/

theorem mem_Create (rows : List SlackChannels) (c r : SlackChannels)
    (h : r ∈ Create rows c) : r ∈ rows ∨ r = c := by
  unfold Create at h
  split_ifs at h
  · exact Or.inl h
  · rcases List.mem_append.1 h with h | h
    · exact Or.inl h
    · exact Or.inr (List.mem_singleton.1 h)

theorem mem_Create_of_mem (rows : List SlackChannels) (c r : SlackChannels)
    (h : r ∈ rows) : r ∈ Create rows c := by
  unfold Create
  split_ifs
  · exact h
  · exact List.mem_append_left _ h

theorem mem_Save (rows : List SlackChannels) (c r : SlackChannels)
    (h : r ∈ Save rows c) : r ∈ rows ∨ r = c := by
  unfold Save at h
  split_ifs at h
  · exact mem_Create rows c r h
  · obtain ⟨r0, hr0, he⟩ := List.mem_map.1 h
    split_ifs at he
    · exact Or.inr he.symm
    · exact Or.inl (he ▸ hr0)
  · rcases List.mem_append.1 h with h | h
    · exact Or.inl h
    · exact Or.inr (List.mem_singleton.1 h)

theorem mem_Save_of_ne (rows : List SlackChannels) (c r : SlackChannels)
    (h : r ∈ rows) (hne : r.ID ≠ c.ID) : r ∈ Save rows c := by
  unfold Save
  split_ifs
  · exact mem_Create_of_mem rows c r h
  · exact List.mem_map.2 ⟨r, h, by rw [if_neg hne]⟩
  · exact List.mem_append_left _ h

/-- After `Save` of a row with a non-zero key, the rows of that key are that row. -/
theorem Save_key (rows : List SlackChannels) (c : SlackChannels) (hid : c.ID ≠ "") :
    c ∈ Save rows c ∧ ∀ r ∈ Save rows c, r.ID = c.ID → r = c := by
  unfold Save
  rw [if_neg hid]
  split_ifs with hany
  · constructor
    · obtain ⟨r0, hr0, he⟩ := List.any_eq_true.1 hany
      exact List.mem_map.2 ⟨r0, hr0, by rw [if_pos (by simpa using he)]⟩
    · intro r hr hrid
      obtain ⟨r0, _, he⟩ := List.mem_map.1 hr
      split_ifs at he with h0
      · exact he.symm
      · rw [← he] at hrid; exact absurd hrid h0
  · constructor
    · exact List.mem_append_right _ (List.mem_singleton_self _)
    · intro r hr hrid
      rcases List.mem_append.1 hr with h | h
      · exact absurd (List.any_eq_true.2 ⟨r, h, by simpa using hrid⟩) hany
      · exact List.mem_singleton.1 h

theorem Save_exists_key (rows : List SlackChannels) (c : SlackChannels) (X : String)
    (h : ∃ r ∈ rows, r.ID = X) : ∃ r ∈ Save rows c, r.ID = X := by
  obtain ⟨r0, hr0, hX⟩ := h
  by_cases hne : r0.ID = c.ID
  · by_cases hid : c.ID = ""
    · refine ⟨r0, ?_, hX⟩
      unfold Save
      rw [if_pos hid]
      exact mem_Create_of_mem rows c r0 hr0
    · exact ⟨c, (Save_key rows c hid).1, by rw [← hne, hX]⟩
  · exact ⟨r0, mem_Save_of_ne rows c r0 hr0 hne, hX⟩

theorem ChannelKept_Save (X : String) (s : Int) (a : Bool) (rows : List SlackChannels)
    (c : SlackChannels) (h : ChannelKept X s a rows)
    (hc : c.ID = X → c.StartsAt = s ∧ c.Archived = a) :
    ChannelKept X s a (Save rows c) := by
  refine ⟨Save_exists_key rows c X h.1, ?_⟩
  intro r hr hX
  rcases mem_Save rows c r hr with h1 | h1
  · exact h.2 r h1 hX
  · subst h1; exact hc hX

theorem ChannelKept_Create (X : String) (s : Int) (a : Bool) (rows : List SlackChannels)
    (c : SlackChannels) (h : ChannelKept X s a rows)
    (hc : c.ID = X → c.StartsAt = s ∧ c.Archived = a) :
    ChannelKept X s a (Create rows c) := by
  obtain ⟨⟨r0, hr0, hX0⟩, hall⟩ := h
  refine ⟨⟨r0, mem_Create_of_mem rows c r0 hr0, hX0⟩, ?_⟩
  intro r hr hX
  rcases mem_Create rows c r hr with h1 | h1
  · exact hall r h1 hX
  · subst h1; exact hc hX

/-- The row `First` returns is a row of the table unless its key is zero. -/
theorem First_channel_mem (cond : SlackChannels → Bool) (rows : List SlackChannels)
    (h : (First cond rows).ID ≠ "") : First cond rows ∈ rows := by
  unfold First at h ⊢
  cases hf : rows.find? cond with
  | none => rw [hf] at h; exact absurd rfl h
  | some r => exact List.mem_of_find?_eq_some hf

theorem inviteStep_kept (app : App) (w : World) (channel : SlackChannels)
    (peopleOnPlan : List PlanPeople) (X : String) (s : Int) (a : Bool)
    (h : ChannelKept X s a w.db.slackChannels)
    (hc : channel.ID = X → channel.StartsAt = s ∧ channel.Archived = a) :
    ChannelKept X s a (inviteStep app w channel peopleOnPlan).db.slackChannels := by
  unfold inviteStep
  simp only
  split_ifs with hne
  · exact ChannelKept_Save X s a _ _ h hc
  · exact h

theorem refreshChannel_kept (app : App) (w : World) (channel : SlackChannels)
    (topic : String) (X : String) (s : Int) (a : Bool)
    (h : ChannelKept X s a w.db.slackChannels)
    (hc : channel.ID = X → channel.StartsAt = s ∧ channel.Archived = a) :
    ChannelKept X s a (refreshChannel app w channel topic).1.db.slackChannels ∧
    ((refreshChannel app w channel topic).2.ID = X →
      (refreshChannel app w channel topic).2.StartsAt = s ∧
      (refreshChannel app w channel topic).2.Archived = a) := by
  unfold refreshChannel
  split_ifs with hne
  · exact ⟨ChannelKept_Save X s a _ _ h hc, hc⟩
  · exact ⟨h, hc⟩

/-- One iteration keeps the rows of a key that Slack does not hand out again. -/
theorem processPlanTime_kept (app : App) (w w2 : World) (planTime : PlanTimes)
    (X : String) (s : Int) (a : Bool)
    (hfresh : ∀ calls name isPrivate,
      (app.slack calls (.CreateConversation name isPrivate)).err = false →
      (app.slack calls (.CreateConversation name isPrivate)).ID ≠ X)
    (h : ChannelKept X s a w.db.slackChannels)
    (hrun : processPlanTime app w planTime = some (.ok w2)) :
    ChannelKept X s a w2.db.slackChannels := by
  unfold processPlanTime at hrun
  simp only at hrun
  split_ifs at hrun with h1 h2 h3 h4
  · cases hrun; exact h
  · cases hrun; exact h
  · cases hrun; exact h
  · cases hrun
    have hmem := First_channel_mem _ _ h4
    obtain ⟨hk, hc⟩ := refreshChannel_kept app w _ (composeTopic _ _) X s a h
      (fun hX => h.2 _ hmem hX)
    exact inviteStep_kept app _ _ _ X s a hk hc
  · split at hrun
    · cases hrun
    · rename_i name hname
      split at hrun
      · cases hrun
      · rename_i w3 created hcreate
        cases hrun
        obtain ⟨hc, herr, hrows, _⟩ := createChannel_ok app w planTime _ _ name w3 created hcreate
        have hne : created.ID ≠ X := by
          rw [hc]; exact hfresh _ _ _ herr
        have hk : ChannelKept X s a w3.db.slackChannels := by
          rw [hrows]
          exact ChannelKept_Create X s a _ _ h (fun hX => absurd hX hne)
        exact inviteStep_kept app _ _ _ X s a hk (fun hX => absurd hX hne)

theorem processPlanTimes_kept (app : App) (X : String) (s : Int) (a : Bool)
    (hfresh : ∀ calls name isPrivate,
      (app.slack calls (.CreateConversation name isPrivate)).err = false →
      (app.slack calls (.CreateConversation name isPrivate)).ID ≠ X)
    (planTimes : List PlanTimes) : ∀ (w w2 : World),
    ChannelKept X s a w.db.slackChannels →
    processPlanTimes app w planTimes = some (.ok w2) →
    ChannelKept X s a w2.db.slackChannels := by
  induction planTimes with
  | nil =>
    intro w w2 h hrun
    unfold processPlanTimes at hrun
    cases hrun; exact h
  | cons pt rest ih =>
    intro w w2 h hrun
    unfold processPlanTimes at hrun
    split at hrun
    · cases hrun
    · cases hrun
    · rename_i w1 h1
      exact ih w1 w2 (processPlanTime_kept app w w1 pt X s a hfresh h h1) hrun
/-! ## The archival sweep, termination and the invitee step -/

theorem sweep_fold_archives (app : App) (X : String) (hX : X ≠ "")
    (L : List SlackChannels) : ∀ w : World,
    (((∃ r ∈ w.db.slackChannels, r.ID = X) ∧
        ∀ r ∈ w.db.slackChannels, r.ID = X → r.Archived = true) ∨ ∃ ch ∈ L, ch.ID = X) →
    (∃ r ∈ (L.foldl (fun w channel =>
        World.setChannels (callSlack app w (.ArchiveConversation channel.ID)).1
          (Save (callSlack app w (.ArchiveConversation channel.ID)).1.db.slackChannels
            { channel with Archived := true })) w).db.slackChannels, r.ID = X) ∧
    ∀ r ∈ (L.foldl (fun w channel =>
        World.setChannels (callSlack app w (.ArchiveConversation channel.ID)).1
          (Save (callSlack app w (.ArchiveConversation channel.ID)).1.db.slackChannels
            { channel with Archived := true })) w).db.slackChannels,
      r.ID = X → r.Archived = true := by
  induction L with
  | nil =>
    intro w h
    rcases h with h | ⟨ch, hch, _⟩
    · exact h
    · cases hch
  | cons ch rest ih =>
    intro w h
    rw [List.foldl_cons]
    apply ih
    rcases h with h | ⟨ch0, hch0, hid0⟩
    · left
      refine ⟨Save_exists_key _ _ X h.1, ?_⟩
      intro r hr hrX
      rcases mem_Save _ _ r hr with h1 | h1
      · exact h.2 r h1 hrX
      · rw [h1]
    · rcases List.mem_cons.1 hch0 with rfl | hrest
      · left
        have hk := Save_key w.db.slackChannels { ch0 with Archived := true }
          (by simpa [hid0] using hX)
        refine ⟨⟨_, hk.1, hid0⟩, ?_⟩
        intro r hr hrX
        have := hk.2 r hr (by rw [hrX, ← hid0])
        rw [this]
      · right
        exact ⟨ch0, hrest, hid0⟩

theorem sweep_fold_kept (app : App) (X : String) (s : Int) (a : Bool)
    (L : List SlackChannels) (hL : ∀ ch ∈ L, ch.ID ≠ X) : ∀ w : World,
    ChannelKept X s a w.db.slackChannels →
    ChannelKept X s a (L.foldl (fun w channel =>
        World.setChannels (callSlack app w (.ArchiveConversation channel.ID)).1
          (Save (callSlack app w (.ArchiveConversation channel.ID)).1.db.slackChannels
            { channel with Archived := true })) w).db.slackChannels := by
  induction L with
  | nil => intro w h; exact h
  | cons ch rest ih =>
    intro w h
    rw [List.foldl_cons]
    apply ih (fun c hc => hL c (List.mem_cons_of_mem _ hc))
    exact ChannelKept_Save X s a _ _ h
      (fun hid => absurd hid (hL ch (List.mem_cons_self _ _)))

/-- The sweep archives the rows of a non-zero key that are stale and not archived. -/
theorem archiveSweep_archives (app : App) (w : World) (startDate : Int) (X : String)
    (s : Int) (hX : X ≠ "") (h : ChannelKept X s false w.db.slackChannels)
    (hs : s < startDate) :
    (∃ r ∈ (archiveSweep app w startDate).db.slackChannels, r.ID = X) ∧
    ∀ r ∈ (archiveSweep app w startDate).db.slackChannels, r.ID = X → r.Archived = true := by
  unfold archiveSweep
  apply sweep_fold_archives app X hX
  right
  obtain ⟨⟨r0, hr0, hid0⟩, hall⟩ := h
  refine ⟨r0, List.mem_filter.2 ⟨hr0, ?_⟩, hid0⟩
  obtain ⟨h1, h2⟩ := hall r0 hr0 hid0
  simp [h1, h2, hs]

/-- The sweep leaves alone the rows of a key that are not stale or are archived. -/
theorem archiveSweep_kept (app : App) (w : World) (startDate : Int) (X : String)
    (s : Int) (a : Bool) (h : ChannelKept X s a w.db.slackChannels)
    (hs : ¬ (s < startDate ∧ a = false)) :
    ChannelKept X s a (archiveSweep app w startDate).db.slackChannels := by
  unfold archiveSweep
  apply sweep_fold_kept app X s a _ _ w h
  intro ch hch hid
  obtain ⟨hmem, hcond⟩ := List.mem_filter.1 hch
  obtain ⟨h1, h2⟩ := h.2 ch hmem hid
  apply hs
  simp [h1, h2] at hcond
  exact ⟨hcond.1, hcond.2⟩

theorem ChannelKept_of_nodup (rows : List SlackChannels)
    (hkey : (rows.map fun r => r.ID).Nodup) (c : SlackChannels) (hc : c ∈ rows) :
    ChannelKept c.ID c.StartsAt c.Archived rows := by
  refine ⟨⟨c, hc, rfl⟩, ?_⟩
  intro r hr hid
  have := List.inj_on_of_nodup_map hkey hr hc hid
  rw [this]
  exact ⟨rfl, rfl⟩


theorem processPlanTime_returns (app : App) (w : World) (planTime : PlanTimes) :
    ∃ r, processPlanTime app w planTime = some r := by
  unfold processPlanTime
  simp only
  split_ifs
  · exact ⟨_, rfl⟩
  · exact ⟨_, rfl⟩
  · exact ⟨_, rfl⟩
  · exact ⟨_, rfl⟩
  · obtain ⟨m, _, _, _, _, hrun⟩ :=
      probeLoop_terminates w.db.slackChannels (app.formatDate planTime.StartsAt)
    have ha : allocateName w.db.slackChannels (app.formatDate planTime.StartsAt) =
        some (probeName (app.formatDate planTime.StartsAt) m) := hrun _ (le_refl _)
    rw [ha]
    simp only
    split
    · exact ⟨_, rfl⟩
    · exact ⟨_, rfl⟩

theorem processPlanTimes_returns (app : App) (planTimes : List PlanTimes) :
    ∀ w : World, ∃ r, processPlanTimes app w planTimes = some r := by
  induction planTimes with
  | nil => intro w; exact ⟨_, rfl⟩
  | cons pt rest ih =>
    intro w
    unfold processPlanTimes
    obtain ⟨r, hr⟩ := processPlanTime_returns app w pt
    rw [hr]
    cases r with
    | error w1 => exact ⟨_, rfl⟩
    | ok w1 => exact ih w1

/-- Every run ends: it returns or exits, whatever the store and the replies. -/
theorem CreateSlackChannels_returns (app : App) (now : Int) (db : DB) :
    ∃ r, CreateSlackChannels app now db = some r := by
  unfold CreateSlackChannels
  simp only
  split_ifs
  · exact ⟨_, rfl⟩
  · obtain ⟨r, hr⟩ := processPlanTimes_returns app
      (duePlanTimes db.planTimes (startDate app.config.CreateFromWeekday now)
        (lastDate app.config now)) ⟨db, []⟩
    rw [hr]
    cases r with
    | error w1 => exact ⟨_, rfl⟩
    | ok w1 => exact ⟨_, rfl⟩

theorem refreshChannel_facts (app : App) (w : World) (channel : SlackChannels)
    (topic : String) :
    (refreshChannel app w channel topic).1.db.slackUsers = w.db.slackUsers ∧
    (refreshChannel app w channel topic).2.ID = channel.ID ∧
    (refreshChannel app w channel topic).2.UsersInvited = channel.UsersInvited := by
  unfold refreshChannel
  split_ifs <;> exact ⟨rfl, rfl, rfl⟩

/-- With a non-empty delta the invitee step records the invite call and saves
the channel with the delta appended, whatever the call returns. -/
theorem inviteStep_merges (app : App) (w : World) (channel : SlackChannels)
    (peopleOnPlan : List PlanPeople) (hid : channel.ID ≠ "")
    (hne : usersToInvite app.config.StickyUsers w.db.slackUsers
      (invitedOf channel.UsersInvited) peopleOnPlan ≠ []) :
    (inviteStep app w channel peopleOnPlan).calls.getLast? =
      some (.InviteUsersToConversation channel.ID
        (usersToInvite app.config.StickyUsers w.db.slackUsers
          (invitedOf channel.UsersInvited) peopleOnPlan)) ∧
    (∃ r ∈ (inviteStep app w channel peopleOnPlan).db.slackChannels, r.ID = channel.ID) ∧
    ∀ r ∈ (inviteStep app w channel peopleOnPlan).db.slackChannels, r.ID = channel.ID →
      r.UsersInvited = stringsJoin (invitedOf channel.UsersInvited ++
        usersToInvite app.config.StickyUsers w.db.slackUsers
          (invitedOf channel.UsersInvited) peopleOnPlan) := by
  have hlen : (usersToInvite app.config.StickyUsers w.db.slackUsers
      (invitedOf channel.UsersInvited) peopleOnPlan).length ≠ 0 := by
    intro h; exact hne (List.length_eq_zero.1 h)
  unfold inviteStep
  simp only
  rw [if_pos hlen]
  have hk := Save_key w.db.slackChannels
    { channel with UsersInvited := stringsJoin (invitedOf channel.UsersInvited ++
        usersToInvite app.config.StickyUsers w.db.slackUsers
          (invitedOf channel.UsersInvited) peopleOnPlan) } hid
  refine ⟨?_, ⟨_, hk.1, rfl⟩, ?_⟩
  · simp [World.setChannels, callSlack]
  · intro r hr hrid
    have := hk.2 r hr hrid
    rw [this]
/-! ## Lemmas on the order of ties -/

/-- The head of the insertion sort is the first element of least distance. -/
theorem sortByDistance_head (p : People) (post : List People)
    (hpost : ∀ q ∈ post, p.Distance ≤ q.Distance) :
    ∀ pre : List People, (∀ q ∈ pre, p.Distance < q.Distance) →
      ∃ rest, sortByDistance (pre ++ p :: post) = p :: rest := by
  have hmem : ∀ l : List People, ∀ x ∈ sortByDistance l, x ∈ l := fun l x hx =>
    (List.perm_insertionSort _ l).subset hx
  intro pre
  induction pre with
  | nil =>
    intro _
    unfold sortByDistance
    simp only [List.nil_append, List.insertionSort]
    cases hs : List.insertionSort (fun a b : People => a.Distance ≤ b.Distance) post with
    | nil => exact ⟨[], rfl⟩
    | cons b t =>
      have hb : b ∈ post := hmem post b (by unfold sortByDistance; rw [hs]; exact List.mem_cons_self _ _)
      refine ⟨b :: t, ?_⟩
      simp [List.orderedInsert, hpost b hb]
  | cons a pre ih =>
    intro hpre
    obtain ⟨rest, hrest⟩ := ih (fun q hq => hpre q (List.mem_cons_of_mem _ hq))
    have ha := hpre a (List.mem_cons_self _ _)
    unfold sortByDistance at hrest ⊢
    rw [List.cons_append, List.insertionSort, hrest]
    refine ⟨List.orderedInsert (fun a b : People => a.Distance ≤ b.Distance) a rest, ?_⟩
    simp [List.orderedInsert, Nat.not_le.2 ha]

theorem scorePeople_append (lev : String → String → Nat) (u : SlackUsers)
    (pre post : List People) (p : People) :
    scorePeople lev u (pre ++ p :: post) =
      scorePeople lev u pre ++ { p with Distance := score lev u p } :: scorePeople lev u post := by
  simp [scorePeople]

/-! ## Lemmas on the loop, the refresh and the invitee step -/

theorem processPlanTimes_append (app : App) (before rest : List PlanTimes) :
    ∀ w w1 : World, processPlanTimes app w before = some (.ok w1) →
      processPlanTimes app w (before ++ rest) = processPlanTimes app w1 rest := by
  induction before with
  | nil =>
    intro w w1 h
    simp only [processPlanTimes] at h
    cases h
    rfl
  | cons pt before ih =>
    intro w w1 h
    rw [List.cons_append]
    rcases hp : processPlanTime app w pt with _ | (w2 | w2)
    · simp only [processPlanTimes, hp] at h
      cases h
    · simp only [processPlanTimes, hp] at h
      cases h
    · simp only [processPlanTimes, hp] at h ⊢
      exact ih w2 w1 h

theorem RowsOfKey_Save (X : String) (P : SlackChannels → Prop) (rows : List SlackChannels)
    (c : SlackChannels) (h : RowsOfKey X P rows) (hc : c.ID = X → P c) :
    RowsOfKey X P (Save rows c) := by
  refine ⟨Save_exists_key rows c X h.1, ?_⟩
  intro r hr hX
  rcases mem_Save rows c r hr with h1 | h1
  · exact h.2 r h1 hX
  · subst h1; exact hc hX

theorem RowsOfKey_Save_key (P : SlackChannels → Prop) (rows : List SlackChannels)
    (c : SlackChannels) (hid : c.ID ≠ "") (hc : P c) : RowsOfKey c.ID P (Save rows c) := by
  obtain ⟨h1, h2⟩ := Save_key rows c hid
  exact ⟨⟨c, h1, rfl⟩, fun r hr hX => by rw [h2 r hr hX]; exact hc⟩

/-- What the refresh branch does, spelled out. -/
theorem refreshChannel_eq (app : App) (w : World) (channel : SlackChannels) (topic : String) :
    (refreshChannel app w channel topic).1.calls = w.calls ++
      (if channel.Description ≠ topic then
        [.SetTopicOfConversation channel.ID topic, .SetPurposeOfConversation channel.ID topic]
       else []) ∧
    (refreshChannel app w channel topic).1.db.slackChannels =
      (if channel.Description ≠ topic then
        Save w.db.slackChannels { channel with Description := topic }
       else w.db.slackChannels) ∧
    (refreshChannel app w channel topic).2 = { channel with Description := topic } := by
  unfold refreshChannel
  by_cases hd : channel.Description = topic
  · rw [if_neg (by simpa using hd)]
    simp only [hd, ne_eq, not_true_eq_false, if_false, List.append_nil, true_and]
    rw [← hd]
  · rw [if_pos (by simpa using hd)]
    simp [hd, World.setChannels, callSlack]

/-- What the invitee step does, spelled out. -/
theorem inviteStep_eq (app : App) (w : World) (channel : SlackChannels)
    (peopleOnPlan : List PlanPeople) (delta : List String)
    (hdelta : usersToInvite app.config.StickyUsers w.db.slackUsers
      (invitedOf channel.UsersInvited) peopleOnPlan = delta) :
    (inviteStep app w channel peopleOnPlan).calls = w.calls ++
      (if delta ≠ [] then [.InviteUsersToConversation channel.ID delta] else []) ∧
    (inviteStep app w channel peopleOnPlan).db.slackChannels =
      (if delta ≠ [] then
        Save w.db.slackChannels
          { channel with UsersInvited := stringsJoin (invitedOf channel.UsersInvited ++ delta) }
       else w.db.slackChannels) ∧
    (inviteStep app w channel peopleOnPlan).db.slackUsers = w.db.slackUsers := by
  unfold inviteStep
  simp only
  rw [hdelta]
  by_cases hd : delta = []
  · subst hd
    simp
  · have hlen : delta.length ≠ 0 := fun h => hd (List.length_eq_zero.1 h)
    rw [if_pos hlen]
    simp [hd, World.setChannels, callSlack]

/-! ## Lemmas on the encoding of the invited users -/

theorem splitOn_append_sep (x : Char) (s t : List Char) :
    (s ++ x :: t).splitOn x = s.splitOn x ++ t.splitOn x := by
  unfold List.splitOn
  induction s with
  | nil => simp
  | cons c s ih =>
    rw [List.cons_append, List.splitOnP_cons, List.splitOnP_cons, ih]
    split_ifs
    · rfl
    · cases hs : List.splitOnP (fun y => y == x) s with
      | nil => exact absurd hs (List.splitOnP_ne_nil _ _)
      | cons a l => rfl

theorem intercalate_append (sep : List Char) (a b : List (List Char))
    (ha : a ≠ []) (hb : b ≠ []) :
    List.intercalate sep (a ++ b) = List.intercalate sep a ++ sep ++ List.intercalate sep b := by
  induction a with
  | nil => exact absurd rfl ha
  | cons x a ih =>
    cases a with
    | nil =>
      cases b with
      | nil => exact absurd rfl hb
      | cons y b => simp [List.intercalate, List.intersperse]
    | cons z a =>
      have := ih (by simp)
      simp only [List.intercalate, List.cons_append, List.intersperse, List.flatten_cons,
        List.append_assoc, List.append_eq] at this ⊢
      rw [this]

theorem map_toList_stringsSplit (s : String) :
    (stringsSplit s).map String.toList = s.toList.splitOn ',' := by
  unfold stringsSplit
  have hid : String.toList ∘ String.mk = id := by funext x; rfl
  rw [List.map_map, hid, List.map_id]

theorem stringsSplit_ne_nil (s : String) : stringsSplit s ≠ [] := by
  unfold stringsSplit
  intro h
  exact List.splitOnP_ne_nil _ _ (List.map_eq_nil_iff.1 h)

theorem stringsSplit_stringsJoin_append (s : String) (delta : List String) (hd : delta ≠ []) :
    stringsSplit (stringsJoin (stringsSplit s ++ delta)) =
      stringsSplit s ++ stringsSplit (stringsJoin delta) := by
  have h1 : (stringsJoin (stringsSplit s ++ delta)).toList =
      s.toList ++ ',' :: (stringsJoin delta).toList := by
    unfold stringsJoin
    show List.intercalate [','] (List.map String.toList (stringsSplit s ++ delta)) = _
    rw [List.map_append, intercalate_append _ _ _
      (by simpa using stringsSplit_ne_nil s) (by simpa using hd),
      map_toList_stringsSplit, List.intercalate_splitOn]
    simp
  unfold stringsSplit at *
  rw [h1, splitOn_append_sep, List.map_append]

theorem stringsSplit_stringsJoin (delta : List String) (hd : delta ≠ [])
    (hc : ∀ id ∈ delta, ',' ∉ id.toList) : stringsSplit (stringsJoin delta) = delta := by
  unfold stringsSplit stringsJoin
  show List.map String.mk
    ((List.intercalate [','] (List.map String.toList delta)).splitOn ',') = delta
  rw [List.splitOn_intercalate _ ',' (by
    intro l hl
    obtain ⟨id, hid, rfl⟩ := List.mem_map.1 hl
    exact hc id hid) (by simpa using hd), List.map_map]
  have hid : String.mk ∘ String.toList = id := by funext x; rfl
  rw [hid, List.map_id]

theorem invitedOf_eq (s : String) :
    invitedOf s = if stringsSplit s = [""] then [] else stringsSplit s := by
  unfold invitedOf
  simp only
  cases h : stringsSplit s with
  | nil => simp
  | cons a l =>
    cases l with
    | nil =>
      by_cases ha : a = ""
      · simp [ha]
      · simp [ha]
    | cons b l => simp

/-- The decoded list is a prefix of what is decoded after a delta was joined to it. -/
theorem invitedOf_join_prefix (s : String) (delta : List String) (hd : delta ≠ []) :
    invitedOf s <+: invitedOf (stringsJoin (invitedOf s ++ delta)) := by
  rw [invitedOf_eq s]
  split_ifs with h1
  · exact List.nil_prefix
  · rw [invitedOf_eq, stringsSplit_stringsJoin_append s delta hd]
    have hne1 := stringsSplit_ne_nil s
    have hne2 := stringsSplit_ne_nil (stringsJoin delta)
    rw [if_neg]
    · exact List.prefix_append _ _
    · intro h
      have hl := congrArg List.length h
      rw [List.length_append] at hl
      have := List.length_pos.2 hne1
      have := List.length_pos.2 hne2
      simp at hl
      omega

/-- With IDs that are non-empty and hold no comma, decoding what was joined
gives back the list. -/
theorem invitedOf_join_eq (s : String) (delta : List String) (hd : delta ≠ [])
    (hc : ∀ id ∈ delta, id ≠ "" ∧ ',' ∉ id.toList) :
    invitedOf (stringsJoin (invitedOf s ++ delta)) = invitedOf s ++ delta := by
  have hsj := stringsSplit_stringsJoin delta hd (fun id hid => (hc id hid).2)
  have hnot : delta ≠ [""] := by
    intro h
    exact (hc "" (by rw [h]; exact List.mem_singleton_self _)).1 rfl
  rw [invitedOf_eq s]
  split_ifs with h1
  · rw [List.nil_append, invitedOf_eq, hsj, if_neg hnot]
  · rw [invitedOf_eq, stringsSplit_stringsJoin_append s delta hd, hsj]
    rw [if_neg]
    intro h
    have hl := congrArg List.length h
    rw [List.length_append] at hl
    have := List.length_pos.2 (stringsSplit_ne_nil s)
    have := List.length_pos.2 hd
    simp at hl
    omega

theorem mem_usersToInvite (StickyUsers : List String) (slackUsers : List SlackUsers)
    (invited : List String) (peopleOnPlan : List PlanPeople) (id : String) :
    id ∈ usersToInvite StickyUsers slackUsers invited peopleOnPlan ↔
      (id ∈ StickyUsers ∨ ∃ pp ∈ peopleOnPlan,
        (First (fun r : SlackUsers => r.PCID = pp.Person) slackUsers).ID = id ∧ id ≠ "") ∧
      id ∉ invited := by
  obtain ⟨s1, s2⟩ := sticky_fold invited StickyUsers [] List.nodup_nil
  obtain ⟨_, p2⟩ := people_fold invited slackUsers peopleOnPlan _ s1
  unfold usersToInvite
  simp only
  rw [p2, s2]
  simp only [List.not_mem_nil, false_or]
  tauto

theorem First_user_mem (cond : SlackUsers → Bool) (rows : List SlackUsers)
    (h : (First cond rows).ID ≠ "") : First cond rows ∈ rows := by
  unfold First at h ⊢
  cases hf : rows.find? cond with
  | none => rw [hf] at h; exact absurd rfl h
  | some r => exact List.mem_of_find?_eq_some hf

/-- Recomputing the delta from the invited list with the delta appended gives nothing. -/
theorem usersToInvite_again (StickyUsers : List String) (slackUsers : List SlackUsers)
    (invited : List String) (peopleOnPlan : List PlanPeople) :
    usersToInvite StickyUsers slackUsers
      (invited ++ usersToInvite StickyUsers slackUsers invited peopleOnPlan) peopleOnPlan = [] := by
  apply List.eq_nil_iff_forall_not_mem.2
  intro id hid
  obtain ⟨hcand, hni⟩ := (mem_usersToInvite _ _ _ _ id).1 hid
  rw [List.mem_append, not_or] at hni
  exact hni.2 ((mem_usersToInvite _ _ _ _ id).2 ⟨hcand, hni.1⟩)

/-! ## The ways of one iteration and its calls -/

/-- The three ways an iteration can go: the plan time is skipped, the channel
of its plan exists and is refreshed, or a channel is to be created. -/
theorem processPlanTime_cases (app : App) (w : World) (planTime : PlanTimes)
    (r : Except World World) (h : processPlanTime app w planTime = some r) :
    r = .ok w ∨
    ((planFor w planTime).ID ≠ 0 ∧ (channelFor w planTime).ID ≠ "" ∧
      r = .ok (inviteStep app
        (refreshChannel app w (channelFor w planTime) (topicFor w planTime)).1
        (refreshChannel app w (channelFor w planTime) (topicFor w planTime)).2
        (peopleOnPlanFor w planTime))) ∨
    ((planFor w planTime).ID ≠ 0 ∧ (channelFor w planTime).ID = "" ∧ ∃ name,
      ((app.slack w.calls (.CreateConversation name true)).err = true ∧
        r = .error ⟨w.db, w.calls ++ [.CreateConversation name true]⟩) ∨
      ∃ w3 created,
        createChannel app w planTime (channelFor w planTime) (topicFor w planTime) name =
          .ok (w3, created) ∧
        r = .ok (inviteStep app w3 created (peopleOnPlanFor w planTime))) := by
  unfold processPlanTime at h
  simp only at h
  split_ifs at h with h1 h2 h3 h4
  · left; cases h; rfl
  · left; cases h; rfl
  · left; cases h; rfl
  · right; left
    cases h
    exact ⟨h1, h4, rfl⟩
  · right; right
    refine ⟨h1, by simpa using h4, ?_⟩
    split at h
    · cases h
    · rename_i name hname
      refine ⟨name, ?_⟩
      split at h
      · rename_i w2 hc
        left
        cases h
        unfold createChannel callSlack at hc
        simp only at hc
        split_ifs at hc with herr
        cases hc
        exact ⟨herr, rfl⟩
      · rename_i w3 created hc
        right
        cases h
        exact ⟨w3, created, hc, rfl⟩

theorem createChannel_calls (app : App) (w : World) (planTime : PlanTimes)
    (channel : SlackChannels) (topic name : String) (w2 : World) (created : SlackChannels)
    (h : createChannel app w planTime channel topic name = .ok (w2, created)) :
    w2.calls = w.calls ++ [.CreateConversation name true] ++
      (if topic ≠ "" then
        [.SetTopicOfConversation channel.ID topic, .SetPurposeOfConversation channel.ID topic]
       else []) := by
  unfold createChannel callSlack at h
  simp only at h
  split_ifs at h with herr htopic
  · injection h with h
    injection h with h1 h2
    subst h1
    simp [World.setChannels, htopic]
  · injection h with h
    injection h with h1 h2
    subst h1
    have ht : topic = "" := by simpa using htopic
    simp [World.setChannels, ht]

/-- The calls an iteration adds hold no archive call. -/
theorem processPlanTime_calls (app : App) (w : World) (planTime : PlanTimes)
    (r : Except World World) (h : processPlanTime app w planTime = some r) :
    ∃ new, (outcomeWorld r).calls = w.calls ++ new ∧
      (∀ id, .ArchiveConversation id ∉ new) ∧
      ((channelFor w planTime).ID ≠ "" →
        ∀ name isPrivate, .CreateConversation name isPrivate ∉ new) := by
  rcases processPlanTime_cases app w planTime r h with rfl | ⟨_, hch, rfl⟩ | ⟨_, hch, name, h3⟩
  · exact ⟨[], by simp [outcomeWorld], by simp, by simp⟩
  · obtain ⟨hrc, _, _⟩ := refreshChannel_eq app w (channelFor w planTime) (topicFor w planTime)
    obtain ⟨hic, _, _⟩ := inviteStep_eq app
      (refreshChannel app w (channelFor w planTime) (topicFor w planTime)).1
      (refreshChannel app w (channelFor w planTime) (topicFor w planTime)).2
      (peopleOnPlanFor w planTime) _ rfl
    refine ⟨_, by simp only [outcomeWorld]; rw [hic, hrc, List.append_assoc], ?_, ?_⟩
    · intro id hmem
      rcases List.mem_append.1 hmem with hm | hm
      · split_ifs at hm <;> simp at hm
      · split_ifs at hm <;> simp at hm
    · intro _ name isPrivate hmem
      rcases List.mem_append.1 hmem with hm | hm
      · split_ifs at hm <;> simp at hm
      · split_ifs at hm <;> simp at hm
  · rcases h3 with ⟨_, rfl⟩ | ⟨w3, created, hc, rfl⟩
    · exact ⟨_, rfl, by simp, fun hne => absurd hch hne⟩
    · have hcc := createChannel_calls app w planTime _ _ name w3 created hc
      obtain ⟨hic, _, _⟩ := inviteStep_eq app w3 created (peopleOnPlanFor w planTime) _ rfl
      refine ⟨_, by simp only [outcomeWorld]; rw [hic, hcc, List.append_assoc,
        List.append_assoc], ?_, fun hne => absurd hch hne⟩
      intro id hmem
      rcases List.mem_append.1 hmem with hm | hm
      · simp at hm
      · rcases List.mem_append.1 hm with hm | hm
        · split_ifs at hm <;> simp at hm
        · split_ifs at hm <;> simp at hm

/-- An iteration keeps the rows of a key Slack does not hand out again, also
when it ends in an exit. -/
theorem processPlanTime_kept_all (app : App) (w : World) (planTime : PlanTimes)
    (r : Except World World) (X : String) (s : Int) (a : Bool)
    (hfresh : ∀ calls name isPrivate,
      (app.slack calls (.CreateConversation name isPrivate)).err = false →
      (app.slack calls (.CreateConversation name isPrivate)).ID ≠ X)
    (h : ChannelKept X s a w.db.slackChannels)
    (hrun : processPlanTime app w planTime = some r) :
    ChannelKept X s a (outcomeWorld r).db.slackChannels := by
  cases r with
  | ok w2 => exact processPlanTime_kept app w w2 planTime X s a hfresh h hrun
  | error w2 =>
    rcases processPlanTime_cases app w planTime _ hrun with h1 | ⟨_, _, h1⟩ | ⟨_, _, name, h3⟩
    · cases h1
    · cases h1
    · rcases h3 with ⟨_, h1⟩ | ⟨w3, created, _, h1⟩
      · cases h1; exact h
      · cases h1

/-- The loop keeps the rows of such a key and adds no archive call. -/
theorem processPlanTimes_kept_all (app : App) (X : String) (s : Int) (a : Bool)
    (hfresh : ∀ calls name isPrivate,
      (app.slack calls (.CreateConversation name isPrivate)).err = false →
      (app.slack calls (.CreateConversation name isPrivate)).ID ≠ X)
    (planTimes : List PlanTimes) : ∀ (w : World) (r : Except World World),
    ChannelKept X s a w.db.slackChannels → .ArchiveConversation X ∉ w.calls →
    processPlanTimes app w planTimes = some r →
    ChannelKept X s a (outcomeWorld r).db.slackChannels ∧
      .ArchiveConversation X ∉ (outcomeWorld r).calls := by
  induction planTimes with
  | nil =>
    intro w r h hc hrun
    simp only [processPlanTimes] at hrun
    cases hrun
    exact ⟨h, hc⟩
  | cons pt rest ih =>
    intro w r h hc hrun
    rcases hp : processPlanTime app w pt with _ | r1
    · simp only [processPlanTimes, hp] at hrun
      cases hrun
    · have hk := processPlanTime_kept_all app w pt r1 X s a hfresh h hp
      obtain ⟨new, hnew, hna, _⟩ := processPlanTime_calls app w pt r1 hp
      have hc1 : .ArchiveConversation X ∉ (outcomeWorld r1).calls := by
        rw [hnew]
        intro hm
        rcases List.mem_append.1 hm with hm | hm
        · exact hc hm
        · exact hna X hm
      cases r1 with
      | error w1 =>
        simp only [processPlanTimes, hp] at hrun
        cases hrun
        exact ⟨hk, hc1⟩
      | ok w1 =>
        simp only [processPlanTimes, hp] at hrun
        exact ih w1 r hk hc1 hrun

/-- The sweep adds archive calls only for the rows it found stale and not archived. -/
theorem sweep_fold_calls (app : App) (X : String) (L : List SlackChannels)
    (hL : ∀ ch ∈ L, ch.ID ≠ X) : ∀ w : World, .ArchiveConversation X ∉ w.calls →
    .ArchiveConversation X ∉ (L.foldl (fun w channel =>
        World.setChannels (callSlack app w (.ArchiveConversation channel.ID)).1
          (Save (callSlack app w (.ArchiveConversation channel.ID)).1.db.slackChannels
            { channel with Archived := true })) w).calls := by
  induction L with
  | nil => intro w h; exact h
  | cons ch rest ih =>
    intro w h
    rw [List.foldl_cons]
    apply ih (fun c hc => hL c (List.mem_cons_of_mem _ hc))
    simp only [World.setChannels, callSlack]
    intro hm
    rcases List.mem_append.1 hm with hm | hm
    · exact h hm
    · simp at hm
      exact hL ch (List.mem_cons_self _ _) hm.symm

/-! ## One channel per plan -/

theorem WellKeyed_append (rows : List SlackChannels) (c : SlackChannels)
    (h : WellKeyed rows) (hid : c.ID ≠ "") (hnew : ∀ r ∈ rows, r.ID ≠ c.ID)
    (hplan : ∀ r ∈ rows, r.PCPlan = c.PCPlan → r.ID = c.ID) : WellKeyed (rows ++ [c]) := by
  obtain ⟨h1, h2, h3⟩ := h
  refine ⟨?_, ?_, ?_⟩
  · rw [List.map_append, List.nodup_append]
    refine ⟨h1, List.nodup_singleton _, ?_⟩
    intro x hx hx2
    obtain ⟨r, hr, rfl⟩ := List.mem_map.1 hx
    simp at hx2
    exact hnew r hr hx2
  · rw [List.map_append, List.nodup_append]
    refine ⟨h2, List.nodup_singleton _, ?_⟩
    intro x hx hx2
    obtain ⟨r, hr, rfl⟩ := List.mem_map.1 hx
    simp at hx2
    exact hnew r hr (hplan r hr hx2)
  · intro r hr
    rcases List.mem_append.1 hr with h | h
    · exact h3 r h
    · rw [List.mem_singleton.1 h]; exact hid

theorem Create_wellKeyed (rows : List SlackChannels) (c : SlackChannels)
    (h : WellKeyed rows) (hid : c.ID ≠ "")
    (hplan : ∀ r ∈ rows, r.PCPlan = c.PCPlan → r.ID = c.ID) : WellKeyed (Create rows c) := by
  unfold Create
  split_ifs with hany
  · exact h
  · apply WellKeyed_append rows c h hid _ hplan
    intro r hr he
    exact hany (List.any_eq_true.2 ⟨r, hr, by simpa using he⟩)

theorem Save_wellKeyed (rows : List SlackChannels) (c : SlackChannels)
    (h : WellKeyed rows) (hid : c.ID ≠ "")
    (hplan : ∀ r ∈ rows, r.PCPlan = c.PCPlan → r.ID = c.ID) : WellKeyed (Save rows c) := by
  unfold Save
  rw [if_neg hid]
  split_ifs with hany
  · obtain ⟨h1, h2, h3⟩ := h
    have hidmap : (rows.map fun r => if r.ID = c.ID then c else r).map (fun r => r.ID) =
        rows.map fun r => r.ID := by
      rw [List.map_map]
      apply List.map_congr_left
      intro r _
      simp only [Function.comp]
      split_ifs with he
      · exact he.symm
      · rfl
    refine ⟨by rw [hidmap]; exact h1, ?_, ?_⟩
    · rw [List.map_map]
      apply List.Nodup.map_on _ (List.Nodup.of_map _ h1)
      intro x hx y hy hxy
      simp only [Function.comp] at hxy
      split_ifs at hxy with hxc hyc hyc
      · exact List.inj_on_of_nodup_map h1 hx hy (hxc.trans hyc.symm)
      · exact absurd (hplan y hy hxy.symm) hyc
      · exact absurd (hplan x hx hxy) hxc
      · exact List.inj_on_of_nodup_map h2 hx hy hxy
    · intro r hr
      obtain ⟨r0, hr0, he⟩ := List.mem_map.1 hr
      split_ifs at he
      · rw [← he]; exact hid
      · rw [← he]; exact h3 r0 hr0
  · apply WellKeyed_append rows c h hid _ hplan
    intro r hr he
    exact hany (List.any_eq_true.2 ⟨r, hr, by simpa using he⟩)

/-- After `Save` or `Create` of a row, the rows of its plan are those of its key. -/
theorem plan_rows_Save (rows : List SlackChannels) (c : SlackChannels) (p : Nat) (X : String)
    (hc : c.PCPlan = p → c.ID = X)
    (hplan : ∀ r ∈ rows, r.PCPlan = p → r.ID = X) :
    ∀ r ∈ Save rows c, r.PCPlan = p → r.ID = X := by
  intro r hr hp
  rcases mem_Save rows c r hr with h | h
  · exact hplan r h hp
  · rw [h] at hp ⊢; exact hc hp

theorem plan_rows_Create (rows : List SlackChannels) (c : SlackChannels) (p : Nat) (X : String)
    (hc : c.PCPlan = p → c.ID = X)
    (hplan : ∀ r ∈ rows, r.PCPlan = p → r.ID = X) :
    ∀ r ∈ Create rows c, r.PCPlan = p → r.ID = X := by
  intro r hr hp
  rcases mem_Create rows c r hr with h | h
  · exact hplan r h hp
  · rw [h] at hp ⊢; exact hc hp

theorem inviteStep_wellKeyed (app : App) (w : World) (channel : SlackChannels)
    (peopleOnPlan : List PlanPeople) (h : WellKeyed w.db.slackChannels)
    (hid : channel.ID ≠ "")
    (hplan : ∀ r ∈ w.db.slackChannels, r.PCPlan = channel.PCPlan → r.ID = channel.ID) :
    WellKeyed (inviteStep app w channel peopleOnPlan).db.slackChannels := by
  obtain ⟨_, hir, _⟩ := inviteStep_eq app w channel peopleOnPlan _ rfl
  rw [hir]
  split_ifs
  · exact Save_wellKeyed _ _ h hid hplan
  · exact h

theorem planFor_ID (w : World) (planTime : PlanTimes) (h : (planFor w planTime).ID ≠ 0) :
    (planFor w planTime).ID = planTime.Plan := by
  unfold planFor First at h ⊢
  cases hf : w.db.plans.find? (fun r : Plans => r.ID = planTime.Plan) with
  | none => rw [hf] at h; exact absurd rfl h
  | some r =>
    have := List.find?_some hf
    simpa using this

theorem channelFor_none (w : World) (planTime : PlanTimes)
    (hids : ∀ r ∈ w.db.slackChannels, r.ID ≠ "") (h : (channelFor w planTime).ID = "") :
    ∀ r ∈ w.db.slackChannels, r.PCPlan ≠ (planFor w planTime).ID := by
  unfold channelFor First at h
  cases hf : w.db.slackChannels.find?
      (fun r : SlackChannels => r.PCPlan = (planFor w planTime).ID) with
  | none =>
    intro r hr
    have := List.find?_eq_none.1 hf r hr
    simpa using this
  | some r0 =>
    rw [hf] at h
    exact absurd h (hids r0 (List.mem_of_find?_eq_some hf))

theorem channelFor_some (w : World) (planTime : PlanTimes)
    (h : (channelFor w planTime).ID ≠ "") :
    channelFor w planTime ∈ w.db.slackChannels ∧
      (channelFor w planTime).PCPlan = (planFor w planTime).ID := by
  refine ⟨First_channel_mem _ _ h, ?_⟩
  unfold channelFor First at h ⊢
  cases hf : w.db.slackChannels.find?
      (fun r : SlackChannels => r.PCPlan = (planFor w planTime).ID) with
  | none => rw [hf] at h; exact absurd rfl h
  | some r0 =>
    have := List.find?_some hf
    simpa using this

/-- One iteration keeps the table well keyed when Slack names the channels it creates. -/
theorem processPlanTime_wellKeyed (app : App) (w : World) (planTime : PlanTimes)
    (r : Except World World)
    (hslack : ∀ calls name isPrivate,
      (app.slack calls (.CreateConversation name isPrivate)).err = false →
      (app.slack calls (.CreateConversation name isPrivate)).ID ≠ "")
    (h : WellKeyed w.db.slackChannels)
    (hrun : processPlanTime app w planTime = some r) :
    WellKeyed (outcomeWorld r).db.slackChannels := by
  rcases processPlanTime_cases app w planTime r hrun with rfl | ⟨_, hch, rfl⟩ | ⟨hp0, hch, name, h3⟩
  · exact h
  · obtain ⟨hmem, _⟩ := channelFor_some w planTime hch
    have hplan : ∀ r ∈ w.db.slackChannels, r.PCPlan = (channelFor w planTime).PCPlan →
        r.ID = (channelFor w planTime).ID := fun r hr he => by
      rw [List.inj_on_of_nodup_map h.2.1 hr hmem he]
    obtain ⟨_, hrr, hr2⟩ := refreshChannel_eq app w (channelFor w planTime) (topicFor w planTime)
    simp only [outcomeWorld]
    apply inviteStep_wellKeyed
    · rw [hrr]
      split_ifs
      · exact Save_wellKeyed _ _ h hch hplan
      · exact h
    · rw [hr2]; exact hch
    · rw [hrr, hr2]
      split_ifs
      · exact plan_rows_Save _ _ _ _ (fun _ => rfl) hplan
      · exact hplan
  · rcases h3 with ⟨_, rfl⟩ | ⟨w3, created, hc, rfl⟩
    · exact h
    · obtain ⟨hcr, herr, hrows, _⟩ := createChannel_ok app w planTime _ _ name w3 created hc
      have hcid : created.ID ≠ "" := by
        rw [hcr]; exact hslack _ _ _ herr
      have hcp : created.PCPlan = (planFor w planTime).ID := by
        rw [hcr]; exact (planFor_ID w planTime hp0).symm
      have hplan : ∀ r ∈ w.db.slackChannels, r.PCPlan = created.PCPlan → r.ID = created.ID :=
        fun r hr he => absurd (he.trans hcp) (channelFor_none w planTime h.2.2 hch r hr)
      simp only [outcomeWorld]
      apply inviteStep_wellKeyed
      · rw [hrows]; exact Create_wellKeyed _ _ h hcid hplan
      · exact hcid
      · rw [hrows]; exact plan_rows_Create _ _ _ _ (fun _ => rfl) hplan

theorem processPlanTimes_wellKeyed (app : App)
    (hslack : ∀ calls name isPrivate,
      (app.slack calls (.CreateConversation name isPrivate)).err = false →
      (app.slack calls (.CreateConversation name isPrivate)).ID ≠ "")
    (planTimes : List PlanTimes) : ∀ (w : World) (r : Except World World),
    WellKeyed w.db.slackChannels → processPlanTimes app w planTimes = some r →
    WellKeyed (outcomeWorld r).db.slackChannels := by
  induction planTimes with
  | nil =>
    intro w r h hrun
    simp only [processPlanTimes] at hrun
    cases hrun
    exact h
  | cons pt rest ih =>
    intro w r h hrun
    rcases hp : processPlanTime app w pt with _ | r1
    · simp only [processPlanTimes, hp] at hrun
      cases hrun
    · have hk := processPlanTime_wellKeyed app w pt r1 hslack h hp
      cases r1 with
      | error w1 =>
        simp only [processPlanTimes, hp] at hrun
        cases hrun
        exact hk
      | ok w1 =>
        simp only [processPlanTimes, hp] at hrun
        exact ih w1 r hk hrun

theorem sweep_fold_wellKeyed (app : App) (L : List SlackChannels)
    (hLid : ∀ a ∈ L, a.ID ≠ "")
    (hL : ∀ a ∈ L, ∀ b ∈ L, a.PCPlan = b.PCPlan → a.ID = b.ID) : ∀ w : World,
    WellKeyed w.db.slackChannels →
    (∀ ch ∈ L, ∀ r ∈ w.db.slackChannels, r.PCPlan = ch.PCPlan → r.ID = ch.ID) →
    WellKeyed (L.foldl (fun w channel =>
        World.setChannels (callSlack app w (.ArchiveConversation channel.ID)).1
          (Save (callSlack app w (.ArchiveConversation channel.ID)).1.db.slackChannels
            { channel with Archived := true })) w).db.slackChannels := by
  induction L with
  | nil => intro w h _; exact h
  | cons ch rest ih =>
    intro w h hq
    rw [List.foldl_cons]
    apply ih (fun a ha => hLid a (List.mem_cons_of_mem _ ha))
      (fun a ha b hb => hL a (List.mem_cons_of_mem _ ha) b (List.mem_cons_of_mem _ hb))
    · exact Save_wellKeyed w.db.slackChannels { ch with Archived := true } h
        (hLid ch (List.mem_cons_self _ _)) (hq ch (List.mem_cons_self _ _))
    · intro c hc
      apply plan_rows_Save
      · intro he
        exact hL ch (List.mem_cons_self _ _) c (List.mem_cons_of_mem _ hc) he
      · exact hq c (List.mem_cons_of_mem _ hc)

theorem archiveSweep_wellKeyed (app : App) (w : World) (startDate : Int)
    (h : WellKeyed w.db.slackChannels) :
    WellKeyed (archiveSweep app w startDate).db.slackChannels := by
  unfold archiveSweep
  have hsub : ∀ a ∈ w.db.slackChannels.filter (fun r =>
      decide (r.StartsAt < startDate ∧ r.Archived ≠ true)), a ∈ w.db.slackChannels :=
    fun a ha => (List.mem_filter.1 ha).1
  apply sweep_fold_wellKeyed app _ (fun a ha => h.2.2 a (hsub a ha)) _ w h
  · intro ch hch r hr he
    rw [List.inj_on_of_nodup_map h.2.1 hr (hsub ch hch) he]
  · intro a ha b hb he
    rw [List.inj_on_of_nodup_map h.2.1 (hsub a ha) (hsub b hb) he]

/-! ## The stored string of invited users -/

theorem toList_stringsJoin_append (s : String) (delta : List String) (hd : delta ≠ []) :
    (stringsJoin (stringsSplit s ++ delta)).toList =
      s.toList ++ ',' :: (stringsJoin delta).toList := by
  unfold stringsJoin
  show List.intercalate [','] (List.map String.toList (stringsSplit s ++ delta)) = _
  rw [List.map_append, intercalate_append _ _ _
    (by simpa using stringsSplit_ne_nil s) (by simpa using hd),
    map_toList_stringsSplit, List.intercalate_splitOn]
  simp

theorem toList_of_stringsSplit_empty (s : String) (h : stringsSplit s = [""]) :
    s.toList = [] := by
  have h1 := map_toList_stringsSplit s
  rw [h] at h1
  have h2 := List.intercalate_splitOn s.toList ','
  rw [← h1] at h2
  rw [← h2]
  rfl

/-- The stored string is a prefix of the string stored after a delta was joined to it. -/
theorem stringsJoin_invitedOf_prefix (s : String) (delta : List String) (hd : delta ≠ []) :
    s.toList <+: (stringsJoin (invitedOf s ++ delta)).toList := by
  rw [invitedOf_eq s]
  split_ifs with h1
  · rw [toList_of_stringsSplit_empty s h1]
    exact List.nil_prefix
  · rw [toList_stringsJoin_append s delta hd]
    exact List.prefix_append _ _

/-! ## Claims on the matcher -/

/-- C1: for a non-empty people list the matching step leaves in `PCID` the ID
of a person whose score is minimal over the whole list when that minimum is
below 7, and 0 when the minimum is 7 or more, whatever `PCID` was before. -/
theorem C1_link_iff_min_below_seven (lev : String → String → Nat)
    (sortSlice : List People → List People) (hsort : SortsByDistance sortSlice)
    (u : SlackUsers) (people : List People) (hne : people ≠ []) :
    ∃ p ∈ people, (∀ q ∈ people, score lev u p ≤ score lev u q) ∧
      (score lev u p < 7 → (matchUser lev sortSlice u people).PCID = p.ID) ∧
      (7 ≤ score lev u p → (matchUser lev sortSlice u people).PCID = 0) := by
  obtain ⟨p, hp, hmin, heq⟩ := matchUser_first lev sortSlice hsort u people hne
  refine ⟨p, hp, hmin, ?_, ?_⟩
  · intro h; rw [heq, if_pos h]
  · intro h; rw [heq, if_neg (by omega)]

/-- Witness of C1: a user with a stale link and two people, one close and one far. -/
theorem C1_link_iff_min_below_seven_witness :
    SortsByDistance sortByDistance ∧
    ([⟨11, "Ann", "Lee", 0⟩, ⟨12, "Jon", "Doe", 0⟩] : List People) ≠ [] ∧
    ∃ p ∈ ([⟨11, "Ann", "Lee", 0⟩, ⟨12, "Jon", "Doe", 0⟩] : List People),
      (∀ q ∈ ([⟨11, "Ann", "Lee", 0⟩, ⟨12, "Jon", "Doe", 0⟩] : List People),
        score editDistance ⟨"U1", "jon", "Jon Doe", "Jon", "Doe", 99⟩ p ≤
          score editDistance ⟨"U1", "jon", "Jon Doe", "Jon", "Doe", 99⟩ q) ∧
      (score editDistance ⟨"U1", "jon", "Jon Doe", "Jon", "Doe", 99⟩ p < 7 →
        (matchUser editDistance sortByDistance ⟨"U1", "jon", "Jon Doe", "Jon", "Doe", 99⟩
          [⟨11, "Ann", "Lee", 0⟩, ⟨12, "Jon", "Doe", 0⟩]).PCID = p.ID) ∧
      (7 ≤ score editDistance ⟨"U1", "jon", "Jon Doe", "Jon", "Doe", 99⟩ p →
        (matchUser editDistance sortByDistance ⟨"U1", "jon", "Jon Doe", "Jon", "Doe", 99⟩
          [⟨11, "Ann", "Lee", 0⟩, ⟨12, "Jon", "Doe", 0⟩]).PCID = 0) :=
  ⟨sortByDistance_sorts, by simp,
    C1_link_iff_min_below_seven editDistance sortByDistance sortByDistance_sorts _ _ (by simp)⟩

/-- C2: the scoring loop stores, for every person, the minimum of the distance
of the display name to the full name, the distance of the real name to the
full name, and the sum of the first-name and last-name distances; the rows
are otherwise unchanged and keep their order. The distances are those Go can
hold in an `int`. -/
theorem C2_score_is_min_of_three (lev : String → String → Nat) (u : SlackUsers)
    (people : List People)
    (hint : ∀ p ∈ people,
      lev u.Name (p.FirstName ++ " " ++ p.LastName) < 2 ^ 63 ∧
      lev u.RealName (p.FirstName ++ " " ++ p.LastName) < 2 ^ 63 ∧
      lev u.FirstName p.FirstName + lev u.LastName p.LastName < 2 ^ 63) :
    scorePeople lev u people =
      people.map fun p => { p with Distance :=
        (min (min (lev u.Name (p.FirstName ++ " " ++ p.LastName))
                  (lev u.RealName (p.FirstName ++ " " ++ p.LastName)))
             (lev u.FirstName p.FirstName + lev u.LastName p.LastName)) } := by
  unfold scorePeople
  apply List.map_congr_left
  intro p hp
  obtain ⟨h1, h2, h3⟩ := hint p hp
  rw [score_eq_min lev u p h1 h2 h3]

/-- Witness of C2: one user scored against two people with the edit distance. -/
theorem C2_score_is_min_of_three_witness :
    (∀ p ∈ ([⟨11, "Ann", "Lee", 0⟩, ⟨12, "Jon", "Doe", 0⟩] : List People),
      editDistance "jon" (p.FirstName ++ " " ++ p.LastName) < 2 ^ 63 ∧
      editDistance "Jon Doe" (p.FirstName ++ " " ++ p.LastName) < 2 ^ 63 ∧
      editDistance "Jon" p.FirstName + editDistance "Doe" p.LastName < 2 ^ 63) ∧
    scorePeople editDistance ⟨"U1", "jon", "Jon Doe", "Jon", "Doe", 99⟩
        [⟨11, "Ann", "Lee", 0⟩, ⟨12, "Jon", "Doe", 0⟩] =
      ([⟨11, "Ann", "Lee", 0⟩, ⟨12, "Jon", "Doe", 0⟩] : List People).map fun p =>
        { p with Distance :=
          (min (min (editDistance "jon" (p.FirstName ++ " " ++ p.LastName))
                    (editDistance "Jon Doe" (p.FirstName ++ " " ++ p.LastName)))
               (editDistance "Jon" p.FirstName + editDistance "Doe" p.LastName)) } :=
  ⟨by decide,
    C2_score_is_min_of_three editDistance ⟨"U1", "jon", "Jon Doe", "Jon", "Doe", 99⟩
      [⟨11, "Ann", "Lee", 0⟩, ⟨12, "Jon", "Doe", 0⟩] (by decide)⟩

/-! ## Claims on the invitees, the channel name, the topic and the window -/

/-- C3: the list `usersToInvite` holds no ID twice, and an ID is in it exactly
when it is a sticky user or the ID of the Slack user found for a person on
the plan, and is not in the previously-invited list. -/
theorem C3_users_to_invite (StickyUsers : List String) (slackUsers : List SlackUsers)
    (invited : List String) (peopleOnPlan : List PlanPeople) :
    (usersToInvite StickyUsers slackUsers invited peopleOnPlan).Nodup ∧
    ∀ id, id ∈ usersToInvite StickyUsers slackUsers invited peopleOnPlan ↔
      (id ∈ StickyUsers ∨ ∃ pp ∈ peopleOnPlan,
        (First (fun r : SlackUsers => r.PCID = pp.Person) slackUsers).ID = id ∧ id ≠ "") ∧
      id ∉ invited := by
  obtain ⟨s1, s2⟩ := sticky_fold invited StickyUsers [] List.nodup_nil
  obtain ⟨p1, p2⟩ := people_fold invited slackUsers peopleOnPlan _ s1
  unfold usersToInvite
  refine ⟨p1, ?_⟩
  intro id
  simp only
  rw [p2, s2]
  simp only [List.not_mem_nil, false_or]
  tauto

/-- C4: on a store whose channels all carry a Slack ID, the allocator returns
the first name of the probe sequence `D`, `D_2`, `D_3`, ... that no stored
channel bears; when `D`, ..., `D_N` (`N ≥ 1`) are borne and `D_(N+1)` is not,
that is `D_(N+1)`; and once the channel named `2024-05-05` has been created
on an empty table, the next name allocated for that date is `2024-05-05_2`. -/
theorem C4_first_unused_name (rows : List SlackChannels) (base : String)
    (hID : ∀ r ∈ rows, r.ID ≠ "") :
    (∃ m, 1 ≤ m ∧ allocateName rows base = some (probeName base m) ∧
      (∀ r ∈ rows, r.Name ≠ probeName base m) ∧
      ∀ j, 1 ≤ j → j < m → ∃ r ∈ rows, r.Name = probeName base j) ∧
    (∀ N, 1 ≤ N → (∀ j, 1 ≤ j → j ≤ N → ∃ r ∈ rows, r.Name = probeName base j) →
      (∀ r ∈ rows, r.Name ≠ probeName base (N + 1)) →
      allocateName rows base = some (base ++ "_" ++ Nat.repr (N + 1))) ∧
    (∀ (app : App) (w w2 : World) (planTime : PlanTimes) (channel created : SlackChannels)
      (topic : String), w.db.slackChannels = [] →
      createChannel app w planTime channel topic "2024-05-05" = .ok (w2, created) →
      created.ID ≠ "" →
      allocateName w.db.slackChannels "2024-05-05" = some "2024-05-05" ∧
      allocateName w2.db.slackChannels "2024-05-05" = some "2024-05-05_2") := by
  obtain ⟨m, hm1, _, hfree, htaken, hrun⟩ := probeLoop_terminates rows base
  have hfree2 : ∀ r ∈ rows, r.Name ≠ probeName base m := fun r hr hn =>
    hfree (nameTaken_of_mem rows hID _ r hr hn)
  refine ⟨⟨m, hm1, hrun _ (le_refl _), hfree2, fun j hj hlt =>
    nameTaken_exists rows _ (htaken j hj hlt)⟩, ?_, ?_⟩
  · intro N hN hall hnot
    have hmN : m = N + 1 := by
      by_contra hne
      rcases Nat.lt_or_gt_of_ne hne with hlt | hgt
      · obtain ⟨r, hr, hn⟩ := hall m hm1 (by omega)
        exact hfree2 r hr hn
      · obtain ⟨r, hr, hn⟩ := nameTaken_exists rows _ (htaken (N + 1) (by omega) hgt)
        exact hnot r hr hn
    have h := hrun _ (le_refl (rows.length + 1))
    rw [hmN] at h
    unfold allocateName
    rw [h]
    unfold probeName suffixedName
    rw [if_neg (by omega)]
  · intro app w w2 planTime channel created topic hempty hcreate hid
    obtain ⟨hc, _, hrows, _⟩ := createChannel_ok app w planTime channel topic _ w2 created hcreate
    rw [hrows, hempty]
    refine ⟨by decide, ?_⟩
    have hname : created.Name = "2024-05-05" := by rw [hc]
    exact allocateName_second created hid hname

/-- Witness of C4: the store holds the channels `2024-05-05` and `2024-05-05_2`. -/
theorem C4_first_unused_name_witness :
    (∀ r ∈ ([⟨"C1", "2024-05-05", "", 1, 0, 0, "", false⟩,
        ⟨"C2", "2024-05-05_2", "", 2, 0, 0, "", false⟩] : List SlackChannels), r.ID ≠ "") ∧
    allocateName [⟨"C1", "2024-05-05", "", 1, 0, 0, "", false⟩,
        ⟨"C2", "2024-05-05_2", "", 2, 0, 0, "", false⟩] "2024-05-05" =
      some ("2024-05-05" ++ "_" ++ Nat.repr (2 + 1)) :=
  ⟨by decide,
    (C4_first_unused_name [⟨"C1", "2024-05-05", "", 1, 0, 0, "", false⟩,
        ⟨"C2", "2024-05-05_2", "", 2, 0, 0, "", false⟩] "2024-05-05" (by decide)).2.1 2
      (by decide)
      (by
        intro j h1 h2
        interval_cases j
        · exact ⟨_, List.mem_cons_self _ _, by decide⟩
        · exact ⟨_, List.mem_cons_of_mem _ (List.mem_cons_self _ _), by decide⟩)
      (by decide)⟩

/-- C5: the probe loop ends for every table and base name: allowed one
iteration more than there are stored channels, or any larger number, it
returns the same name; and when every stored channel carries a Slack ID, no
stored channel bears the returned name. -/
theorem C5_allocator_terminates_unused (rows : List SlackChannels) (base : String)
    (hID : ∀ r ∈ rows, r.ID ≠ "") :
    ∃ name, allocateName rows base = some name ∧
      (∀ fuel, rows.length + 1 ≤ fuel → probeLoop rows base fuel 1 base = some name) ∧
      ∀ r ∈ rows, r.Name ≠ name := by
  obtain ⟨m, _, _, hfree, _, hrun⟩ := probeLoop_terminates rows base
  exact ⟨probeName base m, hrun _ (le_refl _), hrun, fun r hr hn =>
    hfree (nameTaken_of_mem rows hID _ r hr hn)⟩

/-- Witness of C5: a table with one channel bearing the base name. -/
theorem C5_allocator_terminates_unused_witness :
    (∀ r ∈ ([⟨"C1", "2024-05-05", "", 1, 0, 0, "", false⟩] : List SlackChannels), r.ID ≠ "") ∧
    ∃ name, allocateName [⟨"C1", "2024-05-05", "", 1, 0, 0, "", false⟩] "2024-05-05" = some name ∧
      (∀ fuel, ([⟨"C1", "2024-05-05", "", 1, 0, 0, "", false⟩] : List SlackChannels).length + 1
          ≤ fuel →
        probeLoop [⟨"C1", "2024-05-05", "", 1, 0, 0, "", false⟩] "2024-05-05" fuel 1
          "2024-05-05" = some name) ∧
      ∀ r ∈ ([⟨"C1", "2024-05-05", "", 1, 0, 0, "", false⟩] : List SlackChannels),
        r.Name ≠ name :=
  ⟨by decide, C5_allocator_terminates_unused _ _ (by decide)⟩

/-- C6, as the specification states it, fails: with an empty series title and
the title `Easter` the code composes `Sunday - Easter`, not `Sunday (Easter)`. -/
theorem C6_title_only_counterexample :
    composeTopic ⟨1, "Sunday"⟩ ⟨1, "", "Easter", 1⟩ = "Sunday - Easter" ∧
    topicBySpec "Sunday" "" "Easter" = "Sunday (Easter)" ∧
    composeTopic ⟨1, "Sunday"⟩ ⟨1, "", "Easter", 1⟩ ≠ topicBySpec "Sunday" "" "Easter" := by
  decide

/-- C6, amended: the topic is the service type name followed by
`" - " + seriesTitle` when the series title is non-empty and by
`" (" + title + ")"` when the title is non-empty, except that with an empty
series title and a non-empty title it is the name followed by `" - " + title`. -/
theorem C6_topic_composition (serviceType : ServiceTypes) (plan : Plans) :
    composeTopic serviceType plan =
      if plan.SeriesTitle = "" ∧ plan.Title ≠ "" then serviceType.Name ++ " - " ++ plan.Title
      else topicBySpec serviceType.Name plan.SeriesTitle plan.Title := by
  unfold composeTopic topicBySpec
  by_cases hs : plan.SeriesTitle = "" <;> by_cases ht : plan.Title = "" <;>
    simp [hs, ht, String.append_assoc]

/-- C7: with an anchor weekday in 0..6 the window start is `now` minus `k`
whole days for some `k` in 0..6, its weekday is the anchor, and no day nearer
to `now` falls on the anchor. -/
theorem C7_window_start_on_anchor (now anchor : Int) (h0 : 0 ≤ anchor) (h6 : anchor ≤ 6) :
    ∃ k : Int, 0 ≤ k ∧ k ≤ 6 ∧ startDate anchor now = now - k * (24 * Hour) ∧
      Weekday (startDate anchor now) = anchor ∧
      ∀ j : Int, 0 ≤ j → j < k → Weekday (now - j * (24 * Hour)) ≠ anchor := by
  have hw0 : 0 ≤ Weekday now := by unfold Weekday; omega
  have hw6 : Weekday now ≤ 6 := by unfold Weekday; omega
  refine ⟨- daysSub anchor (Weekday now), ?_⟩
  have hd : daysSub anchor (Weekday now) =
      if Weekday now ≥ anchor then anchor - Weekday now else anchor - (Weekday now + 7) := by
    unfold daysSub wrapInt
    split_ifs <;> omega
  have hs : startDate anchor now = now + 86400000000000 * daysSub anchor (Weekday now) := by
    unfold startDate
    rw [if_pos ⟨by omega, h6⟩]
    unfold wrapInt Hour
    rw [hd]
    split_ifs <;> omega
  rw [hs, hd]
  unfold Hour
  unfold Weekday at *
  split_ifs with hge
  · refine ⟨by omega, by omega, by omega, by omega, ?_⟩
    intro j hj0 hjk
    omega
  · refine ⟨by omega, by omega, by omega, by omega, ?_⟩
    intro j hj0 hjk
    omega

/-- Witness of C7: Thursday 1 January 1970, 00:00 UTC, anchored on Sunday. -/
theorem C7_window_start_on_anchor_witness :
    (0 : Int) ≤ 0 ∧ (0 : Int) ≤ 6 ∧
    ∃ k : Int, 0 ≤ k ∧ k ≤ 6 ∧ startDate 0 0 = 0 - k * (24 * Hour) ∧
      Weekday (startDate 0 0) = 0 ∧
      ∀ j : Int, 0 ≤ j → j < k → Weekday (0 - j * (24 * Hour)) ≠ 0 :=
  ⟨by decide, by decide, C7_window_start_on_anchor 0 0 (by decide) (by decide)⟩

/-! ## Claims on the run: archival, due plan times, failed invites -/

/-- C8, as the specification states it, fails: a run that finds no due plan
time exits before the sweep and leaves a stale channel unarchived. -/
theorem C8_no_due_plan_time_counterexample :
    CreateSlackChannels exampleApp 100 { exampleDB with planTimes := [] } =
      some (.error ⟨{ exampleDB with planTimes := [] }, []⟩) ∧
    staleChannel ∈ exampleDB.slackChannels ∧
    staleChannel.Archived = false ∧
    staleChannel.StartsAt < startDate exampleApp.config.CreateFromWeekday 100 := by
  refine ⟨rfl, by decide, rfl, by decide⟩

/-- C8, amended: at the end of every run that returns (one with a due plan
time and no failed channel creation), a channel that was stored with a Slack
ID Slack does not hand out again, and was not archived before the run, is
still stored, has `Archived = true` when its `StartsAt` is strictly before the
window start, whatever the archive call returned, and `Archived = false` when
its `StartsAt` equals the window start. -/
theorem C8_sweep_archives_stale (app : App) (now : Int) (db : DB) (w : World)
    (hrun : CreateSlackChannels app now db = some (.ok w))
    (hkey : (db.slackChannels.map fun r => r.ID).Nodup)
    (c : SlackChannels) (hc : c ∈ db.slackChannels) (hid : c.ID ≠ "")
    (hfresh : ∀ calls name isPrivate,
      (app.slack calls (.CreateConversation name isPrivate)).err = false →
      (app.slack calls (.CreateConversation name isPrivate)).ID ≠ c.ID)
    (hna : c.Archived = false) :
    (∃ r ∈ w.db.slackChannels, r.ID = c.ID) ∧
    (c.StartsAt < startDate app.config.CreateFromWeekday now →
      ∀ r ∈ w.db.slackChannels, r.ID = c.ID → r.Archived = true) ∧
    (c.StartsAt = startDate app.config.CreateFromWeekday now →
      ∀ r ∈ w.db.slackChannels, r.ID = c.ID → r.Archived = false) := by
  have h0 := ChannelKept_of_nodup db.slackChannels hkey c hc
  rw [hna] at h0
  unfold CreateSlackChannels at hrun
  simp only at hrun
  split_ifs at hrun with hlen
  · cases hrun
  · split at hrun
    · cases hrun
    · cases hrun
    · rename_i w1 h1
      cases hrun
      have hk := processPlanTimes_kept app c.ID c.StartsAt false hfresh _ _ w1 h0 h1
      by_cases hs : c.StartsAt < startDate app.config.CreateFromWeekday now
      · obtain ⟨he, ha⟩ := archiveSweep_archives app w1 _ c.ID c.StartsAt hid hk hs
        exact ⟨he, fun _ => ha, fun heq => by omega⟩
      · have hk2 := archiveSweep_kept app w1 (startDate app.config.CreateFromWeekday now)
          c.ID c.StartsAt false hk (fun h => hs h.1)
        exact ⟨hk2.1, fun hlt => absurd hlt hs, fun _ r hr hrid => (hk2.2 r hr hrid).2⟩

/-- Witness of C8: a run on the example store, every Slack call failing; the
stale channel ends archived. -/
theorem C8_sweep_archives_stale_witness :
    CreateSlackChannels exampleApp 100 exampleDB = some (.ok
      ⟨{ exampleDB with slackChannels :=
          [{ staleChannel with Archived := true }, { dueChannel with UsersInvited := "U7,U5" }] },
        [.InviteUsersToConversation "C1" ["U7", "U5"], .ArchiveConversation "C0"]⟩) ∧
    staleChannel.StartsAt < startDate exampleApp.config.CreateFromWeekday 100 ∧
    ∀ r ∈ ([{ staleChannel with Archived := true },
        { dueChannel with UsersInvited := "U7,U5" }] : List SlackChannels),
      r.ID = staleChannel.ID → r.Archived = true :=
  ⟨rfl, by decide,
    (C8_sweep_archives_stale exampleApp 100 exampleDB
      ⟨{ exampleDB with slackChannels :=
          [{ staleChannel with Archived := true }, { dueChannel with UsersInvited := "U7,U5" }] },
        [.InviteUsersToConversation "C1" ["U7", "U5"], .ArchiveConversation "C0"]⟩
      rfl (by decide) staleChannel (by decide) (by decide)
      (fun _ _ _ h => by cases h) rfl).2.1 (by decide)⟩

/-- C9, as the specification states it, fails: a service plan time starting
exactly at the window start lies in `[windowStart, windowEnd)` and is not
selected. -/
theorem C9_window_start_counterexample :
    startDate exampleApp.config.CreateFromWeekday 100 ≤ (⟨1, "service", 100, 160, 1⟩ : PlanTimes).StartsAt ∧
    (⟨1, "service", 100, 160, 1⟩ : PlanTimes).StartsAt < lastDate exampleApp.config 100 ∧
    (⟨1, "service", 100, 160, 1⟩ : PlanTimes) ∉
      duePlanTimes [⟨1, "service", 100, 160, 1⟩]
        (startDate exampleApp.config.CreateFromWeekday 100) (lastDate exampleApp.config 100) := by
  decide

/-- C9, amended: a plan time is selected as due exactly when it is stored with
time type `service` and its start lies strictly between the window start and
the window end; one starting exactly at the window start is not due. -/
theorem C9_due_iff_strictly_inside (config : SlackConfig) (now : Int)
    (planTimes : List PlanTimes) (pt : PlanTimes) :
    pt ∈ duePlanTimes planTimes (startDate config.CreateFromWeekday now) (lastDate config now) ↔
      pt ∈ planTimes ∧ pt.TimeType = "service" ∧
        startDate config.CreateFromWeekday now < pt.StartsAt ∧
        pt.StartsAt < lastDate config now := by
  unfold duePlanTimes
  simp [List.mem_filter]

/-- C10, as the specification states it, fails: the invite call returns an
error, and the channel that had nobody invited is saved with the delta. -/
theorem C10_failed_invite_counterexample :
    (exampleApp.slack [] (.InviteUsersToConversation "C1" ["U7", "U5"])).err = true ∧
    dueChannel ∈ exampleDB.slackChannels ∧ dueChannel.UsersInvited = "" ∧
    processPlanTime exampleApp ⟨exampleDB, []⟩ duePlanTime = some (.ok
      ⟨{ exampleDB with slackChannels :=
          [staleChannel, { dueChannel with UsersInvited := "U7,U5" }] },
        [.InviteUsersToConversation "C1" ["U7", "U5"]]⟩) := by
  refine ⟨rfl, by decide, rfl, rfl⟩

/-- C10, amended: for every channel, found by the lookup or just created, and
every non-empty invite delta, whatever `InviteUsersToConversation` returns, an
error included, the iteration ends with that call, the channel is saved with
the delta appended to its `UsersInvited`, and the loop goes on with the next
plan time. `w1` and `channel` are the state and the channel with which the
invitee step starts, after either branch. -/
theorem C10_delta_merged_despite_error (app : App) (w w1 : World) (planTime : PlanTimes)
    (channel : SlackChannels) (delta : List String)
    (hplan0 : (planFor w planTime).ID ≠ 0)
    (hst0 : (First (fun r : ServiceTypes => r.ID = (planFor w planTime).ServiceType)
      w.db.serviceTypes).ID ≠ 0)
    (hpp0 : peopleOnPlanFor w planTime ≠ [])
    (hstate :
      ((channelFor w planTime).ID ≠ "" ∧
        refreshChannel app w (channelFor w planTime) (topicFor w planTime) = (w1, channel)) ∨
      ((channelFor w planTime).ID = "" ∧
        ∃ name, allocateName w.db.slackChannels (app.formatDate planTime.StartsAt) = some name ∧
          createChannel app w planTime (channelFor w planTime) (topicFor w planTime) name =
            .ok (w1, channel)))
    (hid : channel.ID ≠ "")
    (hdelta : usersToInvite app.config.StickyUsers w1.db.slackUsers
      (invitedOf channel.UsersInvited) (peopleOnPlanFor w planTime) = delta)
    (hdelta0 : delta ≠ []) :
    ∃ w2, processPlanTime app w planTime = some (.ok w2) ∧
      w2.calls = w1.calls ++ [.InviteUsersToConversation channel.ID delta] ∧
      (∃ r ∈ w2.db.slackChannels, r.ID = channel.ID) ∧
      ∀ r ∈ w2.db.slackChannels, r.ID = channel.ID →
        r.UsersInvited = stringsJoin (invitedOf channel.UsersInvited ++ delta) := by
  have hlen : ¬ (peopleOnPlanFor w planTime).length = 0 := fun h =>
    hpp0 (List.length_eq_zero.1 h)
  have hrun : processPlanTime app w planTime =
      some (.ok (inviteStep app w1 channel (peopleOnPlanFor w planTime))) := by
    unfold peopleOnPlanFor channelFor topicFor planFor at *
    unfold processPlanTime
    simp only
    rw [if_neg hplan0, if_neg hst0, if_neg hlen]
    rcases hstate with ⟨hch, href⟩ | ⟨hch, name, hname, hcreate⟩
    · rw [if_pos hch, href]
    · rw [if_neg (by simpa using hch), hname]
      simp only
      rw [hcreate]
  obtain ⟨hic, hir, _⟩ := inviteStep_eq app w1 channel (peopleOnPlanFor w planTime) delta hdelta
  rw [if_pos hdelta0] at hic hir
  have hk := Save_key w1.db.slackChannels
    { channel with UsersInvited := stringsJoin (invitedOf channel.UsersInvited ++ delta) } hid
  refine ⟨_, hrun, hic, ?_, ?_⟩
  · rw [hir]; exact ⟨_, hk.1, rfl⟩
  · intro r hr hrid
    rw [hir] at hr
    rw [hk.2 r hr hrid]

/-- Witness of C10: the invite fails for a channel just created (the second
example store, Slack creating the channel `C9`) and for a channel found by
the lookup (the first example store); both are saved with the delta. -/
theorem C10_delta_merged_despite_error_witness :
    (inviteFailingApp.slack
      [.CreateConversation "2024-05-05_2" true, .SetTopicOfConversation "" "Sunday - Easter",
        .SetPurposeOfConversation "" "Sunday - Easter"]
      (.InviteUsersToConversation "C9" ["U7", "U5"])).err = true ∧
    (∃ w2, processPlanTime inviteFailingApp ⟨exampleDB2, []⟩ newPlanTime = some (.ok w2) ∧
      w2.calls =
        [.CreateConversation "2024-05-05_2" true, .SetTopicOfConversation "" "Sunday - Easter",
          .SetPurposeOfConversation "" "Sunday - Easter"] ++
        [.InviteUsersToConversation "C9" ["U7", "U5"]] ∧
      (∃ r ∈ w2.db.slackChannels, r.ID = "C9") ∧
      ∀ r ∈ w2.db.slackChannels, r.ID = "C9" →
        r.UsersInvited = stringsJoin (invitedOf "" ++ ["U7", "U5"])) ∧
    (exampleApp.slack [] (.InviteUsersToConversation "C1" ["U7", "U5"])).err = true ∧
    (∃ w2, processPlanTime exampleApp ⟨exampleDB, []⟩ duePlanTime = some (.ok w2) ∧
      w2.calls = [] ++ [.InviteUsersToConversation "C1" ["U7", "U5"]] ∧
      (∃ r ∈ w2.db.slackChannels, r.ID = "C1") ∧
      ∀ r ∈ w2.db.slackChannels, r.ID = "C1" →
        r.UsersInvited = stringsJoin (invitedOf "" ++ ["U7", "U5"])) :=
  ⟨rfl,
    C10_delta_merged_despite_error inviteFailingApp ⟨exampleDB2, []⟩
      ⟨{ exampleDB2 with slackChannels := [staleChannel, dueChannel,
          ⟨"C9", "2024-05-05_2", "Sunday - Easter", 2, 170, 180, "", false⟩] },
        [.CreateConversation "2024-05-05_2" true, .SetTopicOfConversation "" "Sunday - Easter",
          .SetPurposeOfConversation "" "Sunday - Easter"]⟩
      newPlanTime ⟨"C9", "2024-05-05_2", "Sunday - Easter", 2, 170, 180, "", false⟩ ["U7", "U5"]
      (by decide) (by decide) (by decide)
      (Or.inr ⟨rfl, "2024-05-05_2", by decide, rfl⟩) (by decide) (by decide) (by decide),
    rfl,
    C10_delta_merged_despite_error exampleApp ⟨exampleDB, []⟩ ⟨exampleDB, []⟩ duePlanTime
      dueChannel ["U7", "U5"] (by decide) (by decide) (by decide)
      (Or.inl ⟨by decide, rfl⟩) (by decide) (by decide) (by decide)⟩

/-! ## Claims C11 to C20 -/

/-- C11, as the specification states it, fails: the creation of the channel
of the first due plan time fails and the run exits there; the second due plan
time is not processed and the stale channel is not archived. -/
theorem C11_failed_creation_counterexample :
    CreateSlackChannels exampleApp 100 exampleDB2 =
      some (.error ⟨exampleDB2, [.CreateConversation "2024-05-05_2" true]⟩) ∧
    duePlanTimes exampleDB2.planTimes (startDate exampleApp.config.CreateFromWeekday 100)
      (lastDate exampleApp.config 100) = [newPlanTime, duePlanTime] ∧
    staleChannel ∈ exampleDB2.slackChannels ∧ staleChannel.Archived = false ∧
    staleChannel.StartsAt < startDate exampleApp.config.CreateFromWeekday 100 := by
  refine ⟨rfl, by decide, by decide, rfl, by decide⟩

/-- C11, amended: when `CreateConversation` fails for a due plan time whose plan
has no channel, no channel row is persisted for it and the run ends there:
the iteration, the loop over the plan times that remain and the run all exit
through `log.Fatalln` with the store as it was before the iteration, so the
remaining plan times are not processed and the archival sweep does not run. -/
theorem C11_failed_creation_exits (app : App) (w : World) (planTime : PlanTimes) (plan : Plans)
    (serviceType : ServiceTypes) (name : String)
    (hplan : First (fun r : Plans => r.ID = planTime.Plan) w.db.plans = plan)
    (hplan0 : plan.ID ≠ 0)
    (hst : First (fun r : ServiceTypes => r.ID = plan.ServiceType) w.db.serviceTypes
      = serviceType)
    (hst0 : serviceType.ID ≠ 0)
    (hpp0 : (w.db.planPeople.filter fun r => r.Plan = plan.ID) ≠ [])
    (hch0 : (First (fun r : SlackChannels => r.PCPlan = plan.ID) w.db.slackChannels).ID = "")
    (hname : allocateName w.db.slackChannels (app.formatDate planTime.StartsAt) = some name)
    (herr : (app.slack w.calls (.CreateConversation name true)).err = true) :
    processPlanTime app w planTime =
      some (.error ⟨w.db, w.calls ++ [.CreateConversation name true]⟩) ∧
    (∀ rest, processPlanTimes app w (planTime :: rest) =
      some (.error ⟨w.db, w.calls ++ [.CreateConversation name true]⟩)) ∧
    (∀ (now : Int) (db : DB) (before rest : List PlanTimes),
      duePlanTimes db.planTimes (startDate app.config.CreateFromWeekday now)
        (lastDate app.config now) = before ++ planTime :: rest →
      processPlanTimes app ⟨db, []⟩ before = some (.ok w) →
      CreateSlackChannels app now db =
        some (.error ⟨w.db, w.calls ++ [.CreateConversation name true]⟩)) := by
  subst hplan hst
  have hlen : ¬ (List.filter (fun r : PlanPeople =>
      decide (r.Plan = (First (fun r : Plans => r.ID = planTime.Plan) w.db.plans).ID))
      w.db.planPeople).length = 0 := by
    intro h; exact hpp0 (List.length_eq_zero.1 h)
  have h1 : processPlanTime app w planTime =
      some (.error ⟨w.db, w.calls ++ [.CreateConversation name true]⟩) := by
    unfold processPlanTime
    simp only
    rw [if_neg hplan0, if_neg hst0, if_neg hlen, if_neg (by simpa using hch0), hname]
    simp only [createChannel, callSlack, herr]
    rfl
  have h2 : ∀ rest, processPlanTimes app w (planTime :: rest) =
      some (.error ⟨w.db, w.calls ++ [.CreateConversation name true]⟩) := by
    intro rest
    unfold processPlanTimes
    rw [h1]
  refine ⟨h1, h2, ?_⟩
  intro now db before rest hdue hbefore
  unfold CreateSlackChannels
  simp only
  rw [hdue, if_neg (by simp), processPlanTimes_append app before _ _ w hbefore, h2 rest]

/-- Witness of C11: the first due plan time of the second example store, every
Slack call failing. -/
theorem C11_failed_creation_exits_witness :
    allocateName exampleDB2.slackChannels (exampleApp.formatDate newPlanTime.StartsAt) =
      some "2024-05-05_2" ∧
    (exampleApp.slack [] (.CreateConversation "2024-05-05_2" true)).err = true ∧
    processPlanTime exampleApp ⟨exampleDB2, []⟩ newPlanTime =
      some (.error ⟨exampleDB2, [.CreateConversation "2024-05-05_2" true]⟩) :=
  ⟨by decide, rfl,
    (C11_failed_creation_exits exampleApp ⟨exampleDB2, []⟩ newPlanTime ⟨2, "Easter", "", 1⟩
      ⟨1, "Sunday"⟩ "2024-05-05_2" rfl (by decide) rfl (by decide) (by decide) rfl
      (by decide) rfl).1⟩

/-- C12: with account IDs as Slack issues them (no sticky ID is empty or holds
a comma, no Slack user ID holds a comma), after the invitee step of a
channel the delta recomputed from the persisted `UsersInvited` with the same
sticky users and people on the plan is empty, and a second invitee step
changes nothing: nobody is invited again. -/
theorem C12_second_run_invites_nobody (app : App) (w : World) (channel : SlackChannels)
    (peopleOnPlan : List PlanPeople) (hid : channel.ID ≠ "")
    (hrows : ∀ r ∈ w.db.slackChannels, r.ID = channel.ID →
      r.UsersInvited = channel.UsersInvited)
    (hsticky : ∀ id ∈ app.config.StickyUsers, id ≠ "" ∧ ',' ∉ id.toList)
    (husers : ∀ u ∈ w.db.slackUsers, ',' ∉ u.ID.toList) :
    ∀ r ∈ (inviteStep app w channel peopleOnPlan).db.slackChannels, r.ID = channel.ID →
      usersToInvite app.config.StickyUsers (inviteStep app w channel peopleOnPlan).db.slackUsers
        (invitedOf r.UsersInvited) peopleOnPlan = [] ∧
      inviteStep app (inviteStep app w channel peopleOnPlan) r peopleOnPlan =
        inviteStep app w channel peopleOnPlan := by
  intro r hr hrid
  obtain ⟨_, hir, hiu⟩ := inviteStep_eq app w channel peopleOnPlan _ rfl
  have hdelta2 : usersToInvite app.config.StickyUsers
      (inviteStep app w channel peopleOnPlan).db.slackUsers
      (invitedOf r.UsersInvited) peopleOnPlan = [] := by
    rw [hiu]
    rw [hir] at hr
    split_ifs at hr with hd
    · have := (Save_key w.db.slackChannels
        { channel with UsersInvited := stringsJoin (invitedOf channel.UsersInvited ++
          usersToInvite app.config.StickyUsers w.db.slackUsers
            (invitedOf channel.UsersInvited) peopleOnPlan) } hid).2 r hr hrid
      rw [this]
      simp only
      rw [invitedOf_join_eq _ _ hd]
      · exact usersToInvite_again _ _ _ _
      · intro id hmem
        obtain ⟨hcand, _⟩ := (mem_usersToInvite _ _ _ _ id).1 hmem
        rcases hcand with hs | ⟨pp, _, hf, hne⟩
        · exact hsticky id hs
        · refine ⟨hne, ?_⟩
          rw [← hf]
          exact husers _ (First_user_mem _ _ (by rw [hf]; exact hne))
    · rw [hrows r hr hrid]
      simpa using hd
  refine ⟨hdelta2, ?_⟩
  unfold inviteStep
  simp only
  unfold inviteStep at hdelta2
  simp only at hdelta2
  rw [hdelta2]
  simp

/-- Witness of C12: a channel with two users invited before, one sticky user
and one person on the plan: the first step queues `U7` and `U5` and stores
`U1,U2,U7,U5`; recomputed from that, the delta is empty. -/
theorem C12_second_run_invites_nobody_witness :
    (∀ id ∈ exampleApp.config.StickyUsers, id ≠ "" ∧ ',' ∉ id.toList) ∧
    (∀ u ∈ exampleDB4.slackUsers, ',' ∉ u.ID.toList) ∧
    usersToInvite exampleApp.config.StickyUsers exampleDB4.slackUsers
      (invitedOf invitedChannel.UsersInvited) [⟨1, 5, 1⟩] = ["U7", "U5"] ∧
    (inviteStep exampleApp ⟨exampleDB4, []⟩ invitedChannel [⟨1, 5, 1⟩]).db.slackChannels =
      [staleChannel, { invitedChannel with UsersInvited := "U1,U2,U7,U5" }] ∧
    ∀ r ∈ (inviteStep exampleApp ⟨exampleDB4, []⟩ invitedChannel [⟨1, 5, 1⟩]).db.slackChannels,
      r.ID = invitedChannel.ID →
      usersToInvite exampleApp.config.StickyUsers
        (inviteStep exampleApp ⟨exampleDB4, []⟩ invitedChannel [⟨1, 5, 1⟩]).db.slackUsers
        (invitedOf r.UsersInvited) [⟨1, 5, 1⟩] = [] ∧
      inviteStep exampleApp (inviteStep exampleApp ⟨exampleDB4, []⟩ invitedChannel [⟨1, 5, 1⟩])
          r [⟨1, 5, 1⟩] =
        inviteStep exampleApp ⟨exampleDB4, []⟩ invitedChannel [⟨1, 5, 1⟩] :=
  ⟨by decide, by decide, by decide, by decide,
    C12_second_run_invites_nobody exampleApp ⟨exampleDB4, []⟩ invitedChannel [⟨1, 5, 1⟩]
      (by decide) (by decide) (by decide) (by decide)⟩

/-- C13: for a channel with a Slack ID whose stored rows carry its
`UsersInvited`, the list decoded from `UsersInvited` before the invitee step
is a prefix of the list decoded from the `UsersInvited` stored after it, and
the stored string itself is a prefix of the string stored after it: IDs are
only appended. -/
theorem C13_invited_only_appended (app : App) (w : World) (channel : SlackChannels)
    (peopleOnPlan : List PlanPeople) (hid : channel.ID ≠ "")
    (hrows : ∀ r ∈ w.db.slackChannels, r.ID = channel.ID →
      r.UsersInvited = channel.UsersInvited) :
    ∀ r ∈ (inviteStep app w channel peopleOnPlan).db.slackChannels, r.ID = channel.ID →
      invitedOf channel.UsersInvited <+: invitedOf r.UsersInvited ∧
      channel.UsersInvited.toList <+: r.UsersInvited.toList := by
  intro r hr hrid
  obtain ⟨_, hir, _⟩ := inviteStep_eq app w channel peopleOnPlan _ rfl
  rw [hir] at hr
  split_ifs at hr with hd
  · have := (Save_key w.db.slackChannels
      { channel with UsersInvited := stringsJoin (invitedOf channel.UsersInvited ++
        usersToInvite app.config.StickyUsers w.db.slackUsers
          (invitedOf channel.UsersInvited) peopleOnPlan) } hid).2 r hr hrid
    rw [this]
    constructor
    · exact invitedOf_join_prefix _ _ hd
    · exact stringsJoin_invitedOf_prefix _ _ hd
  · rw [hrows r hr hrid]
    exact ⟨List.prefix_refl _, List.prefix_refl _⟩

/-- Witness of C13: a channel with `U1` and `U2` invited before; the step
queues `U7` and `U5`, and the row stored after it decodes to
`U1, U2, U7, U5`. -/
theorem C13_invited_only_appended_witness :
    invitedChannel.ID ≠ "" ∧
    invitedOf invitedChannel.UsersInvited = ["U1", "U2"] ∧
    (inviteStep exampleApp ⟨exampleDB4, []⟩ invitedChannel [⟨1, 5, 1⟩]).db.slackChannels =
      [staleChannel, { invitedChannel with UsersInvited := "U1,U2,U7,U5" }] ∧
    invitedOf "U1,U2,U7,U5" = ["U1", "U2", "U7", "U5"] ∧
    ∀ r ∈ (inviteStep exampleApp ⟨exampleDB4, []⟩ invitedChannel [⟨1, 5, 1⟩]).db.slackChannels,
      r.ID = invitedChannel.ID →
      invitedOf invitedChannel.UsersInvited <+: invitedOf r.UsersInvited ∧
      invitedChannel.UsersInvited.toList <+: r.UsersInvited.toList :=
  ⟨by decide, by decide, by decide, by decide,
    C13_invited_only_appended exampleApp ⟨exampleDB4, []⟩ invitedChannel [⟨1, 5, 1⟩]
      (by decide) (by decide)⟩

/-- C14: a channel stored with `Archived = true` before a run, under a key that
is unique in the table and that Slack does not hand out again, is still
stored with `Archived = true` when the run ends, returned or exited, and the
run issues no `ArchiveConversation` call for its ID. -/
theorem C14_archived_stays_archived (app : App) (now : Int) (db : DB) (r : Except World World)
    (hrun : CreateSlackChannels app now db = some r)
    (hkey : (db.slackChannels.map fun r => r.ID).Nodup)
    (c : SlackChannels) (hc : c ∈ db.slackChannels)
    (hfresh : ∀ calls name isPrivate,
      (app.slack calls (.CreateConversation name isPrivate)).err = false →
      (app.slack calls (.CreateConversation name isPrivate)).ID ≠ c.ID)
    (harch : c.Archived = true) :
    (∃ r2 ∈ (outcomeWorld r).db.slackChannels, r2.ID = c.ID) ∧
    (∀ r2 ∈ (outcomeWorld r).db.slackChannels, r2.ID = c.ID → r2.Archived = true) ∧
    .ArchiveConversation c.ID ∉ (outcomeWorld r).calls := by
  have h0 := ChannelKept_of_nodup db.slackChannels hkey c hc
  rw [harch] at h0
  unfold CreateSlackChannels at hrun
  simp only at hrun
  split_ifs at hrun with hlen
  · cases hrun
    exact ⟨h0.1, fun r2 hr2 h2 => (h0.2 r2 hr2 h2).2, by simp [outcomeWorld]⟩
  · rcases hp : processPlanTimes app ⟨db, []⟩
        (duePlanTimes db.planTimes (startDate app.config.CreateFromWeekday now)
          (lastDate app.config now)) with _ | r1
    · rw [hp] at hrun; cases hrun
    · obtain ⟨hk, hcalls⟩ := processPlanTimes_kept_all app c.ID c.StartsAt true hfresh _
        ⟨db, []⟩ r1 h0 (by simp) hp
      rw [hp] at hrun
      cases r1 with
      | error w1 =>
        cases hrun
        exact ⟨hk.1, fun r2 hr2 h2 => (hk.2 r2 hr2 h2).2, hcalls⟩
      | ok w1 =>
        cases hrun
        simp only [outcomeWorld] at hk hcalls ⊢
        have hk2 := archiveSweep_kept app w1 (startDate app.config.CreateFromWeekday now)
          c.ID c.StartsAt true hk (fun h => by simp at h)
        refine ⟨hk2.1, fun r2 hr2 h2 => (hk2.2 r2 hr2 h2).2, ?_⟩
        unfold archiveSweep
        apply sweep_fold_calls app c.ID _ _ w1 hcalls
        intro ch hch hX
        obtain ⟨hmem, hcond⟩ := List.mem_filter.1 hch
        have := (hk.2 ch hmem hX).2
        simp [this] at hcond

/-- Witness of C14: the archived channel of a due plan is saved again by the
invitee step, stays archived, and only the stale channel is archived. -/
theorem C14_archived_stays_archived_witness :
    CreateSlackChannels exampleApp 100 exampleDB3 = some (.ok
      ⟨{ exampleDB with slackChannels :=
          [{ staleChannel with Archived := true },
           { dueChannel with UsersInvited := "U7,U5", Archived := true }] },
        [.InviteUsersToConversation "C1" ["U7", "U5"], .ArchiveConversation "C0"]⟩) ∧
    (∀ r2 ∈ ([{ staleChannel with Archived := true },
        { dueChannel with UsersInvited := "U7,U5", Archived := true }] : List SlackChannels),
      r2.ID = "C1" → r2.Archived = true) ∧
    SlackCall.ArchiveConversation "C1" ∉
      ([.InviteUsersToConversation "C1" ["U7", "U5"], .ArchiveConversation "C0"] :
        List SlackCall) :=
  ⟨rfl,
    (C14_archived_stays_archived exampleApp 100 exampleDB3
      (.ok ⟨{ exampleDB with slackChannels :=
          [{ staleChannel with Archived := true },
           { dueChannel with UsersInvited := "U7,U5", Archived := true }] },
        [.InviteUsersToConversation "C1" ["U7", "U5"], .ArchiveConversation "C0"]⟩)
      rfl (by decide) { dueChannel with Archived := true } (by decide)
      (fun _ _ _ h => by cases h) rfl).2⟩

/-- C15: on a table with distinct non-empty keys and Slack naming the channels
it creates, if no two stored channels share a plan before a run, none do when
the run ends; and an iteration for a plan time whose plan has a channel
issues no `CreateConversation` call. -/
theorem C15_one_channel_per_plan (app : App) (now : Int) (db : DB) (r : Except World World)
    (hrun : CreateSlackChannels app now db = some r)
    (hplans : (db.slackChannels.map fun c => c.PCPlan).Nodup)
    (hkey : (db.slackChannels.map fun c => c.ID).Nodup)
    (hids : ∀ c ∈ db.slackChannels, c.ID ≠ "")
    (hslack : ∀ calls name isPrivate,
      (app.slack calls (.CreateConversation name isPrivate)).err = false →
      (app.slack calls (.CreateConversation name isPrivate)).ID ≠ "") :
    ((outcomeWorld r).db.slackChannels.map fun c => c.PCPlan).Nodup ∧
    ∀ (w : World) (planTime : PlanTimes) (r1 : Except World World),
      WellKeyed w.db.slackChannels → processPlanTime app w planTime = some r1 →
      (∃ c ∈ w.db.slackChannels, c.PCPlan = planTime.Plan) →
      ∃ new, (outcomeWorld r1).calls = w.calls ++ new ∧
        ∀ name isPrivate, .CreateConversation name isPrivate ∉ new := by
  constructor
  · have h0 : WellKeyed db.slackChannels := ⟨hkey, hplans, hids⟩
    unfold CreateSlackChannels at hrun
    simp only at hrun
    split_ifs at hrun with hlen
    · cases hrun
      exact hplans
    · rcases hp : processPlanTimes app ⟨db, []⟩
          (duePlanTimes db.planTimes (startDate app.config.CreateFromWeekday now)
            (lastDate app.config now)) with _ | r1
      · rw [hp] at hrun; cases hrun
      · have hk := processPlanTimes_wellKeyed app hslack _ ⟨db, []⟩ r1 h0 hp
        rw [hp] at hrun
        cases r1 with
        | error w1 =>
          cases hrun
          exact hk.2.1
        | ok w1 =>
          cases hrun
          exact (archiveSweep_wellKeyed app w1 _ hk).2.1
  · intro w planTime r1 hwk hrun1 ⟨c, hc, hcp⟩
    obtain ⟨new, hnew, _, hcreate⟩ := processPlanTime_calls app w planTime r1 hrun1
    by_cases hch : (channelFor w planTime).ID = ""
    · rcases processPlanTime_cases app w planTime r1 hrun1 with rfl | ⟨_, hch2, _⟩ | ⟨hp0, _, _⟩
      · exact ⟨[], by simp [outcomeWorld], by simp⟩
      · exact absurd hch hch2
      · exact absurd (hcp.trans (planFor_ID w planTime hp0).symm)
          (channelFor_none w planTime hwk.2.2 hch c hc)
    · exact ⟨new, hnew, hcreate hch⟩

/-- Witness of C15: a run on the second example store with the working Slack
client creates the channel of the second plan and leaves one channel per plan. -/
theorem C15_one_channel_per_plan_witness :
    CreateSlackChannels workingApp 100 exampleDB2 = some (.ok
      ⟨{ exampleDB2 with slackChannels :=
          [{ staleChannel with Archived := true }, { dueChannel with UsersInvited := "U7,U5" },
           ⟨"C9", "2024-05-05_2", "Sunday - Easter", 2, 170, 180, "U7,U5", false⟩] },
        [.CreateConversation "2024-05-05_2" true,
         .SetTopicOfConversation "" "Sunday - Easter",
         .SetPurposeOfConversation "" "Sunday - Easter",
         .InviteUsersToConversation "C9" ["U7", "U5"],
         .InviteUsersToConversation "C1" ["U7", "U5"],
         .ArchiveConversation "C0"]⟩) ∧
    (([{ staleChannel with Archived := true }, { dueChannel with UsersInvited := "U7,U5" },
        ⟨"C9", "2024-05-05_2", "Sunday - Easter", 2, 170, 180, "U7,U5", false⟩] :
      List SlackChannels).map fun c => c.PCPlan).Nodup :=
  ⟨rfl,
    (C15_one_channel_per_plan workingApp 100 exampleDB2
      (.ok ⟨{ exampleDB2 with slackChannels :=
          [{ staleChannel with Archived := true }, { dueChannel with UsersInvited := "U7,U5" },
           ⟨"C9", "2024-05-05_2", "Sunday - Easter", 2, 170, 180, "U7,U5", false⟩] },
        [.CreateConversation "2024-05-05_2" true,
         .SetTopicOfConversation "" "Sunday - Easter",
         .SetPurposeOfConversation "" "Sunday - Easter",
         .InviteUsersToConversation "C9" ["U7", "U5"],
         .InviteUsersToConversation "C1" ["U7", "U5"],
         .ArchiveConversation "C0"]⟩)
      rfl (by decide) (by decide) (by decide)
      (fun _ _ _ _ => by show "C9" ≠ ""; decide)).1⟩

/-- C16: for a due plan whose channel exists, the iteration issues the
set-topic and set-purpose calls exactly when the composed topic differs from
the stored `Description` (followed only by the invite call, if any); after
it the stored row of the channel's key has `Description` equal to the
composed topic and the `Name` it had. -/
theorem C16_refresh_iff_topic_differs (app : App) (w : World) (planTime : PlanTimes)
    (plan : Plans) (serviceType : ServiceTypes) (peopleOnPlan : List PlanPeople)
    (channel : SlackChannels) (topic : String) (delta : List String)
    (hkey : (w.db.slackChannels.map fun r => r.ID).Nodup)
    (hplan : First (fun r : Plans => r.ID = planTime.Plan) w.db.plans = plan)
    (hplan0 : plan.ID ≠ 0)
    (hst : First (fun r : ServiceTypes => r.ID = plan.ServiceType) w.db.serviceTypes
      = serviceType)
    (hst0 : serviceType.ID ≠ 0)
    (hpp : (w.db.planPeople.filter fun r => r.Plan = plan.ID) = peopleOnPlan)
    (hpp0 : peopleOnPlan ≠ [])
    (hch : First (fun r : SlackChannels => r.PCPlan = plan.ID) w.db.slackChannels = channel)
    (hch0 : channel.ID ≠ "")
    (htopic : composeTopic serviceType plan = topic)
    (hdelta : usersToInvite app.config.StickyUsers w.db.slackUsers
      (invitedOf channel.UsersInvited) peopleOnPlan = delta) :
    ∃ w2, processPlanTime app w planTime = some (.ok w2) ∧
      w2.calls = w.calls ++
        (if channel.Description ≠ topic then
          [.SetTopicOfConversation channel.ID topic, .SetPurposeOfConversation channel.ID topic]
         else []) ++
        (if delta ≠ [] then [.InviteUsersToConversation channel.ID delta] else []) ∧
      (∃ r ∈ w2.db.slackChannels, r.ID = channel.ID) ∧
      ∀ r ∈ w2.db.slackChannels, r.ID = channel.ID →
        r.Description = topic ∧ r.Name = channel.Name := by
  have hmem : channel ∈ w.db.slackChannels := by
    rw [← hch]; exact First_channel_mem _ _ (by rw [hch]; exact hch0)
  have honly : ∀ r ∈ w.db.slackChannels, r.ID = channel.ID → r = channel := fun r hr hid =>
    List.inj_on_of_nodup_map hkey hr hmem hid
  have hlen : ¬ (List.filter (fun r : PlanPeople =>
      decide (r.Plan = (First (fun r : Plans => r.ID = planTime.Plan) w.db.plans).ID))
      w.db.planPeople).length = 0 := by
    rw [hplan, hpp]
    intro h; exact hpp0 (List.length_eq_zero.1 h)
  unfold processPlanTime
  simp only
  rw [if_neg (by rw [hplan]; exact hplan0), if_neg (by rw [hplan, hst]; exact hst0), if_neg hlen,
    if_pos (by rw [hplan, hch]; exact hch0)]
  refine ⟨_, rfl, ?_⟩
  rw [hplan, hst, hpp, hch, htopic]
  obtain ⟨hrc, hrr, hr2⟩ := refreshChannel_eq app w channel topic
  obtain ⟨hu, _, _⟩ := refreshChannel_facts app w channel topic
  obtain ⟨hic, hir, _⟩ := inviteStep_eq app (refreshChannel app w channel topic).1
    (refreshChannel app w channel topic).2 peopleOnPlan delta
    (by rw [hu, hr2]; exact hdelta)
  have hrows1 : RowsOfKey channel.ID (fun r => r.Description = topic ∧ r.Name = channel.Name)
      (refreshChannel app w channel topic).1.db.slackChannels := by
    rw [hrr]
    split_ifs with hd
    · exact RowsOfKey_Save_key (fun r => r.Description = topic ∧ r.Name = channel.Name) _
        { channel with Description := topic } hch0 ⟨rfl, rfl⟩
    · exact ⟨⟨channel, hmem, rfl⟩, fun r hr hid => by
        rw [honly r hr hid]; exact ⟨by simpa using hd, rfl⟩⟩
  have hrows2 : RowsOfKey channel.ID (fun r => r.Description = topic ∧ r.Name = channel.Name)
      (inviteStep app (refreshChannel app w channel topic).1
        (refreshChannel app w channel topic).2 peopleOnPlan).db.slackChannels := by
    rw [hir]
    split_ifs with hd
    · apply RowsOfKey_Save _ _ _ _ hrows1
      intro _
      rw [hr2]
      exact ⟨rfl, rfl⟩
    · exact hrows1
  refine ⟨?_, hrows2.1, hrows2.2⟩
  rw [hic, hrc, hr2]

/-- Witness of C16: the plan of the example channel now belongs to the series
`Easter`, so the topic differs from the stored description. -/
theorem C16_refresh_iff_topic_differs_witness :
    dueChannel.Description ≠ "Sunday - Easter" ∧
    ∃ w2, processPlanTime exampleApp
        ⟨{ exampleDB with plans := [⟨1, "Easter", "", 1⟩] }, []⟩ duePlanTime = some (.ok w2) ∧
      w2.calls = [] ++
        (if dueChannel.Description ≠ "Sunday - Easter" then
          [.SetTopicOfConversation dueChannel.ID "Sunday - Easter",
           .SetPurposeOfConversation dueChannel.ID "Sunday - Easter"]
         else []) ++
        (if (["U7", "U5"] : List String) ≠ [] then
          [.InviteUsersToConversation dueChannel.ID ["U7", "U5"]] else []) ∧
      (∃ r ∈ w2.db.slackChannels, r.ID = dueChannel.ID) ∧
      ∀ r ∈ w2.db.slackChannels, r.ID = dueChannel.ID →
        r.Description = "Sunday - Easter" ∧ r.Name = dueChannel.Name :=
  ⟨by decide,
    C16_refresh_iff_topic_differs exampleApp
      ⟨{ exampleDB with plans := [⟨1, "Easter", "", 1⟩] }, []⟩ duePlanTime
      ⟨1, "Easter", "", 1⟩ ⟨1, "Sunday"⟩ [⟨1, 5, 1⟩] dueChannel "Sunday - Easter" ["U7", "U5"]
      (by decide) rfl (by decide) rfl (by decide) rfl (by decide) rfl (by decide) (by decide)
      (by decide)⟩

/-- C17, as the specification states it, fails: of thirteen people the second
and the third share the minimum score 1, and after `sort.Slice` the third is
first in the slice, so the user is linked to person 12, not to person 11. -/
theorem C17_thirteen_people_counterexample :
    thirteenPeople.map (fun p => p.ID) = [10, 11, 12, 13, 14, 15, 16, 17, 18, 19, 20, 21, 22] ∧
    (scorePeople editDistance ⟨"U1", "jon", "Jon", "Jon", "", 0⟩ thirteenPeople).map
      (fun p => p.Distance) = [7, 1, 1, 7, 7, 7, 7, 7, 7, 7, 7, 7, 7] ∧
    (goSortSlice (scorePeople editDistance ⟨"U1", "jon", "Jon", "Jon", "", 0⟩
      thirteenPeople)).map (fun l => l.map fun p => p.ID) =
      some [12, 11, 16, 13, 14, 15, 10, 17, 18, 19, 20, 21, 22] ∧
    (matchUser editDistance sortSliceGo ⟨"U1", "jon", "Jon", "Jon", "", 0⟩
      thirteenPeople).PCID = 12 := by
  refine ⟨by decide, by decide, by decide, by decide⟩

/-- C17, amended: when several people share the minimum score, the person
selected is one of them, whatever sort meets the guarantee of `sort.Slice`;
it is the first of them in the input sequence when the sort is the insertion
sort, which keeps equal elements in their order. -/
theorem C17_tie_selection (lev : String → String → Nat) (sortSlice : List People → List People)
    (hsort : SortsByDistance sortSlice) (u : SlackUsers) (pre post : List People) (p : People)
    (hpre : ∀ q ∈ pre, score lev u p < score lev u q)
    (hpost : ∀ q ∈ post, score lev u p ≤ score lev u q) :
    (∃ m ∈ pre ++ p :: post, score lev u m = score lev u p ∧
      matchUser lev sortSlice u (pre ++ p :: post) =
        if score lev u p < 7 then { u with PCID := m.ID } else { u with PCID := 0 }) ∧
    matchUser lev sortByDistance u (pre ++ p :: post) =
      if score lev u p < 7 then { u with PCID := p.ID } else { u with PCID := 0 } := by
  constructor
  · obtain ⟨m, hm, hmin, heq⟩ := matchUser_first lev sortSlice hsort u (pre ++ p :: post) (by simp)
    have hle : score lev u m ≤ score lev u p := hmin p (by simp)
    have hge : score lev u p ≤ score lev u m := by
      rcases List.mem_append.1 hm with h | h
      · exact Nat.le_of_lt (hpre m h)
      · rcases List.mem_cons.1 h with h | h
        · rw [h]
        · exact hpost m h
    have he : score lev u m = score lev u p := Nat.le_antisymm hle hge
    exact ⟨m, hm, he, by rw [heq, he]⟩
  · obtain ⟨rest, hrest⟩ := sortByDistance_head { p with Distance := score lev u p }
      (scorePeople lev u post)
      (fun q hq => by
        obtain ⟨q0, hq0, rfl⟩ := (scorePeople_mem lev u post q).1 hq
        exact hpost q0 hq0)
      (scorePeople lev u pre)
      (fun q hq => by
        obtain ⟨q0, hq0, rfl⟩ := (scorePeople_mem lev u pre q).1 hq
        exact hpre q0 hq0)
    unfold matchUser
    rw [if_pos (by simp)]
    simp only
    rw [scorePeople_append, hrest]

/-- Witness of C17: three people, the second and third sharing the minimum
score; the insertion sort selects the second. -/
theorem C17_tie_selection_witness :
    SortsByDistance sortByDistance ∧
    score editDistance ⟨"U1", "jon", "Jon", "Jon", "", 0⟩ ⟨11, "Jon", "A", 0⟩ =
      score editDistance ⟨"U1", "jon", "Jon", "Jon", "", 0⟩ ⟨12, "Jon", "B", 0⟩ ∧
    matchUser editDistance sortByDistance ⟨"U1", "jon", "Jon", "Jon", "", 0⟩
        ([⟨10, "Zed", "Young", 0⟩] ++ ⟨11, "Jon", "A", 0⟩ :: [⟨12, "Jon", "B", 0⟩]) =
      if score editDistance ⟨"U1", "jon", "Jon", "Jon", "", 0⟩ ⟨11, "Jon", "A", 0⟩ < 7 then
        { (⟨"U1", "jon", "Jon", "Jon", "", 0⟩ : SlackUsers) with PCID := 11 }
      else { (⟨"U1", "jon", "Jon", "Jon", "", 0⟩ : SlackUsers) with PCID := 0 } :=
  ⟨sortByDistance_sorts, by decide,
    (C17_tie_selection editDistance sortByDistance sortByDistance_sorts
      ⟨"U1", "jon", "Jon", "Jon", "", 0⟩ [⟨10, "Zed", "Young", 0⟩] [⟨12, "Jon", "B", 0⟩]
      ⟨11, "Jon", "A", 0⟩ (by decide) (by decide)).2⟩

/-- C18, as the specification states it, fails: with an empty people list a
user linked to person 99 keeps `PCID = 99`. -/
theorem C18_empty_people_counterexample : (matchUser editDistance sortByDistance ⟨"U1", "jon", "Jon Doe", "Jon", "Doe", 99⟩ []).PCID = 99
    ∧ (99 : Nat) ≠ 0 := by decide

/-- C18, amended: when the list of people is empty the matcher does nothing:
the user, its `PCID` included, is left as it was (so `PCID` is 0 only if it
was 0 before). -/
theorem C18_empty_people_unchanged (lev : String → String → Nat) (sortSlice : List People → List People)
    (u : SlackUsers) : matchUser lev sortSlice u [] = u := by
  simp [matchUser]

/-- C19, as the specification states it, fails: on a Thursday with the anchor
on Friday the code goes back 6 days, while `weekday − (anchor + 7)` is −8
and would put the window start 8 days after `now`. -/
theorem C19_days_back_counterexample : (0 : Int) ≤ 5 ∧ (5 : Int) ≤ 6 ∧ Weekday 0 < 5 ∧
    startDate 5 0 = 0 - 6 * (24 * Hour) ∧
    0 - daysBackBySpec 5 (Weekday 0) * (24 * Hour) = 0 + 8 * (24 * Hour) ∧
    startDate 5 0 ≠ 0 - daysBackBySpec 5 (Weekday 0) * (24 * Hour) := by decide

/-- C19, amended: with an anchor in 0..6 the window start is `now` minus
`daysBack` days, where `daysBack = weekday(now) − anchor` when
`weekday(now) ≥ anchor` and `daysBack = weekday(now) + 7 − anchor` otherwise. -/
theorem C19_days_back (now anchor : Int) (h0 : 0 ≤ anchor) (h6 : anchor ≤ 6) :
    startDate anchor now = now -
      (if Weekday now ≥ anchor then Weekday now - anchor else Weekday now + 7 - anchor) *
        (24 * Hour) := by
  have hw0 : 0 ≤ Weekday now := by unfold Weekday; omega
  have hw6 : Weekday now ≤ 6 := by unfold Weekday; omega
  have hd : daysSub anchor (Weekday now) =
      if Weekday now ≥ anchor then anchor - Weekday now else anchor - (Weekday now + 7) := by
    unfold daysSub wrapInt
    split_ifs <;> omega
  unfold startDate
  rw [if_pos ⟨by omega, h6⟩, hd]
  unfold wrapInt Hour
  split_ifs <;> omega

/-- Witness of C19: Thursday 1 January 1970, 00:00 UTC, anchored on Friday. -/
theorem C19_days_back_witness :
    (0 : Int) ≤ 5 ∧ (5 : Int) ≤ 6 ∧
    startDate 5 0 = 0 -
      (if Weekday 0 ≥ 5 then Weekday 0 - 5 else Weekday 0 + 7 - 5) * (24 * Hour) :=
  ⟨by decide, by decide, C19_days_back 0 5 (by decide) (by decide)⟩

/-- C20: evaluation of the code where the claim fails: Slack returns the ID `C9`
for the created channel, and the set-topic and set-purpose calls that follow
are issued against the empty ID, `channel.ID` being assigned only afterwards. -/
theorem C20_topic_sent_to_empty_id :
    workingApp.slack [] (.CreateConversation "2024-05-05_2" true) = ⟨false, "C9"⟩ ∧
    processPlanTime workingApp ⟨exampleDB2, []⟩ newPlanTime = some (.ok
      ⟨{ exampleDB2 with slackChannels := [staleChannel, dueChannel,
          ⟨"C9", "2024-05-05_2", "Sunday - Easter", 2, 170, 180, "U7,U5", false⟩] },
        [.CreateConversation "2024-05-05_2" true,
         .SetTopicOfConversation "" "Sunday - Easter",
         .SetPurposeOfConversation "" "Sunday - Easter",
         .InviteUsersToConversation "C9" ["U7", "U5"]]⟩) := ⟨rfl, rfl⟩

end ServiceNotifications
